import Mathlib

/-!
Image averaging: sequential and row-partitioned parallel box blur

A shallow embedding of the averaging kernel `neighborhoodAverage` (the same text in
`sequentialAverage`, `SequentialTiming` and, over globals, `ParallelTiming`), of the
sequential and the parallel pass, of the three programs that run them (`main` with its
argument validation, the pass loop with periodic images of `sequentialAverage`, the
doubling loop of the two timing harnesses), and of the comparison utility `CompareImages`.

* `int` variables are `Int`; the counter `averageOps` of each program wraps at 32 bits
  (`wrap32`), the only place where overflow is reachable.
* `uchar` is `Fin 256`; a `Vec3b` is three of them (`val[0]`, `val[1]`, `val[2]`).
* A `cv::Mat` loaded by `imread(name, 1)` is a row-major buffer of `Vec3b`; its depth is
  `CV_8U` by construction, so `CV_Assert(img.depth() == CV_8U)` always passes.
* Undefined behaviour (reading or writing outside the buffer, dividing by zero, a null
  `argv` entry handed to `atoi` or `imread`) is the result `none`, or `fault` for a loop.
* The `double` timings are rationals supplied by the caller, one per scale; a quotient of
  two timings is kept as its two operands.
* The ten threads of `runParallel` run one after the other.
-/

/-! ## Data model -/

/-- An 8-bit unsigned channel intensity. -/
abbrev uchar := Fin 256

/-- A three-channel pixel, `cv::Vec3b`: `val[0]` blue, `val[1]` green, `val[2]` red. -/
structure Vec3b where
  val0 : uchar
  val1 : uchar
  val2 : uchar
deriving DecidableEq

/-- A `cv::Mat` of depth `CV_8U` with three channels: dimensions and a row-major buffer. -/
structure Mat where
  rows : Nat
  cols : Nat
  data : List Vec3b
deriving DecidableEq

/-- The buffer of a matrix holds exactly `rows * cols` pixels (what `imread` and
`clone` produce). -/
def Mat.wf (m : Mat) : Prop := m.data.length = m.rows * m.cols

instance (m : Mat) : Decidable m.wf := by unfold Mat.wf; infer_instance

/-- The grid has at least one row and one column. -/
def Mat.nonEmpty (m : Mat) : Prop := 0 < m.rows ∧ 0 < m.cols

instance (m : Mat) : Decidable m.nonEmpty := by unfold Mat.nonEmpty; infer_instance

/-- Row-major offset of pixel `(i, j)`. -/
def Mat.offset (m : Mat) (i j : Int) : Nat := (i * (m.cols : Int) + j).toNat

/-- The index pair lies inside `[0, rows) x [0, cols)`. -/
def Mat.inBounds (m : Mat) (i j : Int) : Prop :=
  0 ≤ i ∧ i < (m.rows : Int) ∧ 0 ≤ j ∧ j < (m.cols : Int)

instance (m : Mat) (i j : Int) : Decidable (m.inBounds i j) := by
  unfold Mat.inBounds; infer_instance

/-- Read access `img.at<Vec3b>(i, j)`; `none` outside the buffer. -/
def Mat.atVec3b (m : Mat) (i j : Int) : Option Vec3b :=
  if m.inBounds i j then m.data[m.offset i j]? else none

/-- Store of a whole pixel at `(i, j)`; `none` outside the buffer. -/
def Mat.store (m : Mat) (i j : Int) (v : Vec3b) : Option Mat :=
  if m.inBounds i j ∧ m.offset i j < m.data.length then
    some { m with data := m.data.set (m.offset i j) v }
  else none

/-- Replace channel `k` (0, 1 or 2) of a pixel. -/
def Vec3b.setVal (v : Vec3b) (k : Nat) (x : uchar) : Vec3b :=
  match k with
  | 0 => { v with val0 := x }
  | 1 => { v with val1 := x }
  | _ => { v with val2 := x }

/-- Channel store `result.at<Vec3b>(r,c)[k] = x`. -/
def Mat.storeChannel (m : Mat) (r c : Int) (k : Nat) (x : uchar) : Option Mat :=
  (m.atVec3b r c).bind (fun v => m.store r c (v.setVal k x))

/-- The copy `Mat::clone()`: a deep copy, equal to the original as a value. -/
def Mat.clone (m : Mat) : Mat := m

/-! ## Machine arithmetic -/

/-- Two's-complement wrap of a mathematical integer into a 32-bit `int`. -/
def wrap32 (x : Int) : Int := (x + 2147483648) % 4294967296 - 2147483648

/-- The cast `cv::saturate_cast<uchar>(int v)`: clamp into `[0, 255]`. -/
def saturate_cast (v : Int) : uchar :=
  if v < 0 then 0 else if v > 255 then 255 else Fin.ofNat v.toNat

/-- Implicit conversion `int -> uchar` of an assignment (reduction modulo 256). -/
def toUchar (v : Int) : uchar := Fin.ofNat (v % 256).toNat

/-! ## The averaging kernel (`neighborhoodAverage`, identical in the three programs) -/

/-- The accumulators of `neighborhoodAverage`. -/
structure Sums where
  sumBlue : Int
  sumGreen : Int
  sumRed : Int
  count : Int
deriving DecidableEq

/-- The values taken by `x` in `for (x = lo; x <= hi; x++)`. -/
def loopRange (lo hi : Int) : List Int :=
  (List.range (hi + 1 - lo).toNat).map (fun (k : Nat) => lo + (k : Int))

/-- The inner loop `for (j = startCol; j <= endCol; j++) { ... }` of the kernel, run
over the remaining values of `j`, for a fixed row `i`. `break` ends the loop,
`continue` goes on with the next `j`. -/
def innerLoop (img : Mat) (i : Int) : List Int → Sums → Option Sums
  | [], s => some s
  | j :: js, s =>
    if i < 0 ∨ i > (img.rows : Int) - 1 then some s
    else if j < 0 ∨ j > (img.cols : Int) - 1 then innerLoop img i js s
    else
      match img.atVec3b i j with
      | none => none
      | some intensity =>
        innerLoop img i js
          { sumBlue := s.sumBlue + (intensity.val0.val : Int)
            sumGreen := s.sumGreen + (intensity.val1.val : Int)
            sumRed := s.sumRed + (intensity.val2.val : Int)
            count := s.count + 1 }

/-- The outer loop `for (i = startRow; i <= endRow; i++)` of the kernel, run over the
remaining values of `i`. -/
def outerLoop (img : Mat) (startCol endCol : Int) : List Int → Sums → Option Sums
  | [], s => some s
  | i :: is, s =>
    (innerLoop img i (loopRange startCol endCol) s).bind (outerLoop img startCol endCol is)

/-- The accumulators after the two nested loops of `neighborhoodAverage`. -/
def kernelSums (img : Mat) (r c : Int) : Option Sums :=
  let startRow := r - 1
  let endRow := r + 1
  let startCol := c - 1
  let endCol := c + 1
  outerLoop img startCol endCol (loopRange startRow endRow)
    { sumBlue := 0, sumGreen := 0, sumRed := 0, count := 0 }

/-- Integer division `a / b` of C++ on `int`: truncating, undefined for `b = 0`. -/
def cdiv (a b : Int) : Option Int := if b = 0 then none else some (Int.tdiv a b)

/-- The kernel `void neighborhoodAverage(const Mat& img, Mat& result, int r, int c)`: the new
value of `result`. -/
def neighborhoodAverage (img result : Mat) (r c : Int) : Option Mat := do
  let s ← kernelSums img r c
  let qBlue ← cdiv s.sumBlue s.count
  let qGreen ← cdiv s.sumGreen s.count
  let qRed ← cdiv s.sumRed s.count
  let avgBlue : Int := ((saturate_cast qBlue).val : Int)
  let avgGreen : Int := ((saturate_cast qGreen).val : Int)
  let avgRed : Int := ((saturate_cast qRed).val : Int)
  let result ← result.storeChannel r c 0 (toUchar avgBlue)
  let result ← result.storeChannel r c 1 (toUchar avgGreen)
  result.storeChannel r c 2 (toUchar avgRed)

/-! ## Loops over the grid -/

/-- The values taken by `x` in `for (x = lo; x < hi; x++)`. -/
def loopRangeLt (lo hi : Int) : List Int :=
  (List.range (hi - lo).toNat).map (fun (k : Nat) => lo + (k : Int))

/-- The column loop `for (j = 0; j < image.cols; j++) neighborhoodAverage(image, averagedImage, i, j);`
for a fixed row `i`. -/
def colLoop (image : Mat) (i : Int) (averagedImage : Mat) : Option Mat :=
  (loopRangeLt 0 image.cols).foldlM (fun res j => neighborhoodAverage image res i j) averagedImage

/-- The double loop of a sequential pass:
`for (i = 0; i < image.rows; i++) for (j = 0; j < image.cols; j++) neighborhoodAverage(image, averagedImage, i, j);` -/
def sweep (image averagedImage : Mat) : Option Mat :=
  (loopRangeLt 0 image.rows).foldlM (fun res i => colLoop image i res) averagedImage

/-! ## Loops with a data-dependent guard -/

/-- How a bounded run of a `while` loop ended. -/
inductive Outcome (σ : Type) where
  | finished (s : σ)
  | fault
  | running (s : σ)
deriving DecidableEq

/-- The loop `while (guard) body`, run for at most `fuel` iterations: `finished` when the
guard turned false, `fault` when the body hit undefined behaviour, `running` when the
guard is still true after `fuel` iterations. -/
def whileLoop {σ : Type} (guard : σ → Bool) (body : σ → Option σ) : Nat → σ → Outcome σ
  | 0, s => if guard s then .running s else .finished s
  | fuel + 1, s =>
    if guard s then
      match body s with
      | none => .fault
      | some s' => whileLoop guard body fuel s'
    else .finished s

/-! ## The timing harnesses -/

/-- One line printed by a timing harness: `averageOps : curr / prev : total_time`. The
quotient of the two `double`s is kept as its two operands. -/
structure Line where
  averageOps : Int
  ratioNum : ℚ
  ratioDen : ℚ
  total : ℚ
deriving DecidableEq

namespace SequentialTiming

/-- The variables of `main` that the doubling loop reads and writes, the lines printed
so far, and the number of scales completed (which selects the clock reading). -/
structure State where
  image : Mat
  averagedImage : Mat
  original : Mat
  averageOps : Int
  prev_elapsed_secs : ℚ
  curr_elapsed_secs : ℚ
  total_time : ℚ
  out : List Line
  scale : Nat
deriving DecidableEq

/-- The body of `for (t = 0; t < averageOps; t++)`: the double loop, then
`image = averagedImage.clone()`. -/
def passBody (s : State) : Option State := do
  let averagedImage ← sweep s.image s.averagedImage
  some { s with averagedImage := averagedImage, image := averagedImage.clone }

/-- The loop `for (t = 0; t < averageOps; t++) { ... }`. -/
def passLoop (s : State) : Option State :=
  (loopRangeLt 0 s.averageOps).foldlM (fun st _ => passBody st) s

/-- What follows the pass loop in one iteration of `while (averageOps <= n)`;
`elapsed k` is the value `double(end - begin) / CLOCKS_PER_SEC` measured in scale `k`.
The line is printed (under `if (averageOps > 0)`) before `total_time` and
`prev_elapsed_secs` are updated. -/
def report (elapsed : Nat → ℚ) (s : State) : State :=
  let curr := elapsed s.scale
  { image := s.original.clone
    averagedImage := s.averagedImage
    original := s.original
    averageOps := wrap32 (s.averageOps * 2)
    prev_elapsed_secs := curr
    curr_elapsed_secs := curr
    total_time := s.total_time + curr
    out :=
      if s.averageOps > 0 then
        s.out ++ [{ averageOps := s.averageOps, ratioNum := curr
                    ratioDen := s.prev_elapsed_secs, total := s.total_time }]
      else s.out
    scale := s.scale + 1 }

/-- One iteration of `while (averageOps <= n)`. -/
def scaleBody (elapsed : Nat → ℚ) (s : State) : Option State :=
  (passLoop s).map (report elapsed)

/-- The state in which `main` enters the doubling loop, for a loaded image. -/
def initial (image : Mat) : State :=
  { image := image, averagedImage := image.clone, original := image.clone, averageOps := 1
    prev_elapsed_secs := 0, curr_elapsed_secs := 0, total_time := 0, out := [], scale := 0 }

/-- The doubling loop `while (averageOps <= n) { ... }` of `main`. -/
def doublingLoop (elapsed : Nat → ℚ) (n : Int) (fuel : Nat) (s : State) : Outcome State :=
  whileLoop (fun st => decide (st.averageOps ≤ n)) (scaleBody elapsed) fuel s

end SequentialTiming

namespace ParallelTiming

/-- The constant of `#define NUM_THREADS 10`. -/
def NUM_THREADS : Int := 10

/-- The global matrices `IMAGE`, `RESULT_IMAGE`, `ORIGINAL`. -/
structure Globals where
  IMAGE : Mat
  RESULT_IMAGE : Mat
  ORIGINAL : Mat
deriving DecidableEq

/-- The kernel `void neighborhoodAverage(int r, int c)`, reading the global `IMAGE` and
writing the global `RESULT_IMAGE`. -/
def neighborhoodAverage (g : Globals) (r c : Int) : Option Globals := do
  let s ← kernelSums g.IMAGE r c
  let qBlue ← cdiv s.sumBlue s.count
  let qGreen ← cdiv s.sumGreen s.count
  let qRed ← cdiv s.sumRed s.count
  let avgBlue : Int := ((saturate_cast qBlue).val : Int)
  let avgGreen : Int := ((saturate_cast qGreen).val : Int)
  let avgRed : Int := ((saturate_cast qRed).val : Int)
  let result ← g.RESULT_IMAGE.storeChannel r c 0 (toUchar avgBlue)
  let result ← result.storeChannel r c 1 (toUchar avgGreen)
  let result ← result.storeChannel r c 2 (toUchar avgRed)
  some { g with RESULT_IMAGE := result }

/-- The row range `(startRow, endRow)` that `partition` computes for thread `tid` when the
image has `rows` rows and there are `W` threads (`W` is `NUM_THREADS` in the program). -/
def rowRange (W rows tid : Int) : Int × Int :=
  let numRows := Int.tdiv rows W
  let remainingRows := Int.tmod rows W
  let startRow := numRows * tid
  let endRow :=
    if tid = W - 1 then numRows * tid + numRows + remainingRows
    else numRows * tid + numRows
  (startRow, endRow)

/-- The thread body `void *partition(void *p)`: thread `tid` averages every pixel of its rows. -/
def partition (g : Globals) (tid : Int) : Option Globals :=
  let range := rowRange NUM_THREADS g.IMAGE.rows tid
  (loopRangeLt range.1 range.2).foldlM
    (fun st i => (loopRangeLt 0 st.IMAGE.cols).foldlM (fun st' j => neighborhoodAverage st' i j) st) g

/-- The threads run to completion one after the other in the given order. -/
def runWorkers (order : List Int) (g : Globals) : Option Globals :=
  order.foldlM partition g

/-- The function `void runParallel()`: create threads `0 .. NUM_THREADS - 1` on `partition` and join
them; the threads are run in creation order. -/
def runParallel (g : Globals) : Option Globals :=
  runWorkers (loopRangeLt 0 NUM_THREADS) g

/-- The variables of `main` that the doubling loop reads and writes, with the globals. -/
structure State where
  g : Globals
  averageOps : Int
  prev_elapsed_secs : ℚ
  curr_elapsed_secs : ℚ
  total_time : ℚ
  out : List Line
  scale : Nat
deriving DecidableEq

/-- The body of `for (t = 0; t < averageOps; t++)`: `runParallel()`, then
`IMAGE = RESULT_IMAGE.clone()`. -/
def passBody (s : State) : Option State := do
  let g ← runParallel s.g
  some { s with g := { g with IMAGE := g.RESULT_IMAGE.clone } }

/-- The loop `for (t = 0; t < averageOps; t++) { ... }`. -/
def passLoop (s : State) : Option State :=
  (loopRangeLt 0 s.averageOps).foldlM (fun st _ => passBody st) s

/-- What follows the pass loop in one iteration of `while (averageOps <= n)`;
`elapsed k` is the value `double(end - begin) / CLOCKS_PER_SEC` measured in scale `k`.
The line is printed (under `if (averageOps > 0)`) before `total_time` and
`prev_elapsed_secs` are updated. -/
def report (elapsed : Nat → ℚ) (s : State) : State :=
  let curr := elapsed s.scale
  { g := { IMAGE := s.g.ORIGINAL.clone, RESULT_IMAGE := s.g.RESULT_IMAGE
           ORIGINAL := s.g.ORIGINAL }
    averageOps := wrap32 (s.averageOps * 2)
    prev_elapsed_secs := curr
    curr_elapsed_secs := curr
    total_time := s.total_time + curr
    out :=
      if s.averageOps > 0 then
        s.out ++ [{ averageOps := s.averageOps, ratioNum := curr
                    ratioDen := s.prev_elapsed_secs, total := s.total_time }]
      else s.out
    scale := s.scale + 1 }

/-- One iteration of `while (averageOps <= n)`. -/
def scaleBody (elapsed : Nat → ℚ) (s : State) : Option State :=
  (passLoop s).map (report elapsed)

/-- The state in which `main` enters the doubling loop, for a loaded image. -/
def initial (image : Mat) : State :=
  { g := { IMAGE := image, RESULT_IMAGE := image.clone, ORIGINAL := image.clone }
    averageOps := 1
    prev_elapsed_secs := 0, curr_elapsed_secs := 0, total_time := 0, out := [], scale := 0 }

/-- The doubling loop `while (averageOps <= n) { ... }` of `main`. -/
def doublingLoop (elapsed : Nat → ℚ) (n : Int) (fuel : Nat) (s : State) : Outcome State :=
  whileLoop (fun st => decide (st.averageOps ≤ n)) (scaleBody elapsed) fuel s

end ParallelTiming

/-! ## Test data -/

/-- A black pixel. -/
def black : Vec3b := ⟨0, 0, 0⟩

/-- A white pixel. -/
def white : Vec3b := ⟨255, 255, 255⟩

/-- The 4x4 grid whose pixel `(0,0)` is white and whose other pixels are black. -/
def impulse4 : Mat := { rows := 4, cols := 4, data := white :: List.replicate 15 black }

/-! ## Reference quantities used to state the results -/

/-- The pixel at `(i, j)`, black outside the grid. -/
def Mat.pixel (m : Mat) (i j : Int) : Vec3b := (m.atVec3b i j).getD black

/-- The grid with pixel `(i, j)` replaced by `v`. -/
def Mat.put (m : Mat) (i j : Int) (v : Vec3b) : Mat :=
  { m with data := m.data.set (m.offset i j) v }

/-- The blue channel as an `int`. -/
def chBlue (v : Vec3b) : Int := (v.val0.val : Int)

/-- The green channel as an `int`. -/
def chGreen (v : Vec3b) : Int := (v.val1.val : Int)

/-- The red channel as an `int`. -/
def chRed (v : Vec3b) : Int := (v.val2.val : Int)

/-- The constant 1, which counts a cell. -/
def chOne (_ : Vec3b) : Int := 1

/-- The contribution of cell `(i, j)` to a sum: its channel value inside the grid, 0 outside. -/
def cell (img : Mat) (ch : Vec3b → Int) (i j : Int) : Int :=
  if img.inBounds i j then ch (img.pixel i j) else 0

/-- The sum of the contributions of the cells `(i, j)`, `j` in `J`. -/
def rowSum (img : Mat) (ch : Vec3b → Int) (i : Int) (J : List Int) : Int :=
  (J.map (cell img ch i)).sum

/-- The sum of the contributions of the cells `(i, j)`, `i` in `L`, `j` in `J`. -/
def gridSum (img : Mat) (ch : Vec3b → Int) (L J : List Int) : Int :=
  (L.map (fun i => rowSum img ch i J)).sum

/-- The sum of a channel over the 3x3 window centred at `(r, c)`, clipped to the grid. -/
def windowSum (img : Mat) (ch : Vec3b → Int) (r c : Int) : Int :=
  gridSum img ch [r - 1, r, r + 1] [c - 1, c, c + 1]

/-- The pixel that the kernel stores at `(r, c)`. -/
def avgPixel (img : Mat) (r c : Int) : Vec3b :=
  { val0 := toUchar (saturate_cast (Int.tdiv (windowSum img chBlue r c) (windowSum img chOne r c))).val
    val1 := toUchar (saturate_cast (Int.tdiv (windowSum img chGreen r c) (windowSum img chOne r c))).val
    val2 := toUchar (saturate_cast (Int.tdiv (windowSum img chRed r c) (windowSum img chOne r c))).val }

/-- One averaging pass as a function of the input grid: every pixel is the kernel value
computed from the input grid. -/
def blur (img : Mat) : Mat :=
  { rows := img.rows
    cols := img.cols
    data := (List.range (img.rows * img.cols)).map
      (fun k => avgPixel img ((k / img.cols : Nat) : Int) ((k % img.cols : Nat) : Int)) }

/-- The kernel run over a list of cells, one after the other, on the same input grid. -/
def cellsLoop (img : Mat) (cells : List (Int × Int)) (res : Mat) : Option Mat :=
  cells.foldlM (fun acc p => neighborhoodAverage img acc p.1 p.2) res

/-- The cells of row `i` in a grid of `cols` columns, in column order. -/
def rowCells (cols : Nat) (i : Int) : List (Int × Int) :=
  (loopRangeLt 0 cols).map (fun j => (i, j))

/-- The cells visited by a sequential pass, in row-major order. -/
def allCells (img : Mat) : List (Int × Int) :=
  (loopRangeLt 0 img.rows).flatMap (rowCells img.cols)

/-- The cells that thread `tid` visits, in the order of its two loops. -/
def workerCells (img : Mat) (tid : Int) : List (Int × Int) :=
  (loopRangeLt (ParallelTiming.rowRange ParallelTiming.NUM_THREADS img.rows tid).1
      (ParallelTiming.rowRange ParallelTiming.NUM_THREADS img.rows tid).2).flatMap
    (rowCells img.cols)

/-- The state of the sequential harness after `k` passes from state `s`. -/
def seqAfter (k : Nat) (s : SequentialTiming.State) : SequentialTiming.State :=
  if k = 0 then s else { s with image := blur^[k] s.image, averagedImage := blur^[k] s.image }

/-- The state of the parallel harness after `k` passes from state `s`. -/
def parAfter (k : Nat) (s : ParallelTiming.State) : ParallelTiming.State :=
  if k = 0 then s
  else { s with g := { s.g with IMAGE := blur^[k] s.g.IMAGE, RESULT_IMAGE := blur^[k] s.g.IMAGE } }

/-- The buffers of the sequential harness are well-formed grids of the same dimensions. -/
def seqOk (s : SequentialTiming.State) : Prop :=
  s.image.wf ∧ s.averagedImage.wf ∧ s.averagedImage.rows = s.image.rows ∧
    s.averagedImage.cols = s.image.cols

/-- The buffers of the parallel harness are well-formed grids of the same dimensions. -/
def parOk (s : ParallelTiming.State) : Prop :=
  s.g.IMAGE.wf ∧ s.g.RESULT_IMAGE.wf ∧ s.g.RESULT_IMAGE.rows = s.g.IMAGE.rows ∧
    s.g.RESULT_IMAGE.cols = s.g.IMAGE.cols

/-- The line printed in scale `i` (counted from 0) while the counter has not overflowed. -/
def lineOf (e : Nat → ℚ) (i : Nat) : Line :=
  { averageOps := 2 ^ i
    ratioNum := e i
    ratioDen := if i = 0 then 0 else e (i - 1)
    total := ∑ j in Finset.range i, e j }

/-- The state of the sequential harness at the head of scale `m` (counted from 0). -/
def seqHead (e : Nat → ℚ) (g : Mat) (m : Nat) : SequentialTiming.State :=
  { image := g
    averagedImage := if m = 0 then g else blur^[2 ^ (m - 1)] g
    original := g
    averageOps := 2 ^ m
    prev_elapsed_secs := if m = 0 then 0 else e (m - 1)
    curr_elapsed_secs := if m = 0 then 0 else e (m - 1)
    total_time := ∑ j in Finset.range m, e j
    out := (List.range m).map (lineOf e)
    scale := m }

/-- The state of the parallel harness at the head of scale `m` (counted from 0). -/
def parHead (e : Nat → ℚ) (g : Mat) (m : Nat) : ParallelTiming.State :=
  { g := { IMAGE := g
           RESULT_IMAGE := if m = 0 then g else blur^[2 ^ (m - 1)] g
           ORIGINAL := g }
    averageOps := 2 ^ m
    prev_elapsed_secs := if m = 0 then 0 else e (m - 1)
    curr_elapsed_secs := if m = 0 then 0 else e (m - 1)
    total_time := ∑ j in Finset.range m, e j
    out := (List.range m).map (lineOf e)
    scale := m }

/-- The set `S` of the cells of the 3x3 window centred at `(r, c)` that lie inside the grid. -/
def Spec.neighbourhood (img : Mat) (r c : Int) : Finset (Int × Int) :=
  (Finset.Icc (r - 1) (r + 1) ×ˢ Finset.Icc (c - 1) (c + 1)).filter
    (fun p => 0 ≤ p.1 ∧ p.1 < (img.rows : Int) ∧ 0 ≤ p.2 ∧ p.2 < (img.cols : Int))

/-- The three colour channels, as opposed to the counting channel. -/
def IsColour (ch : Vec3b → Int) : Prop := ch = chBlue ∨ ch = chGreen ∨ ch = chRed

/-- The buffers are well-formed grids of the same dimensions and the counter is a power of
two up to `2^30`, or one of the two values that follow the overflow. -/
def seqCycle (s : SequentialTiming.State) : Prop :=
  seqOk s ∧ s.original.wf ∧ s.original.rows = s.image.rows ∧ s.original.cols = s.image.cols ∧
    ((∃ m : Nat, m ≤ 30 ∧ s.averageOps = 2 ^ m) ∨ s.averageOps = -2147483648 ∨ s.averageOps = 0)

/-! ## Program exits -/

/-- How `main` returned: `refused` is a `return` of the argument validation, before any
image is touched or written; `completed` is the `return` at the end of `main`, with the
final values of its variables. -/
inductive Exit (σ : Type) where
  | refused (status : Int)
  | completed (status : Int) (s : σ)
deriving DecidableEq

/-! ## The smoothing program `sequentialAverage` -/

/-- A call of `imwrite`: a periodic image `after_<averageOps>_averages.jpg`, or the output
image `argv[3]`. -/
inductive Written where
  | checkpoint (averageOps : Int) (grid : Mat)
  | output (grid : Mat)
deriving DecidableEq

namespace sequentialAverage

/-- The variables of `main` that the pass loop reads and writes, and the images written so
far. -/
structure State where
  image : Mat
  averagedImage : Mat
  averageOps : Int
  files : List Written
deriving DecidableEq

/-- The body of `while (averageOps++ < n)`, entered when the guard held: the counter is
incremented by the guard expression, then the double loop runs, the image is written when
`averageOps % 25 == 0`, and `image = averagedImage.clone()`. -/
def passBody (s : State) : Option State := do
  let averageOps := wrap32 (s.averageOps + 1)
  let averagedImage ← sweep s.image s.averagedImage
  some
    { image := averagedImage.clone
      averagedImage := averagedImage
      averageOps := averageOps
      files :=
        if Int.tmod averageOps 25 = 0 then s.files ++ [Written.checkpoint averageOps averagedImage]
        else s.files }

/-- The counter after the guard expression `averageOps++ < n` was evaluated to false. -/
def leave (s : State) : State :=
  { image := s.image, averagedImage := s.averagedImage
    averageOps := wrap32 (s.averageOps + 1), files := s.files }

/-- The loop `while (averageOps++ < n) { ... }`. -/
def passLoop (n : Int) (fuel : Nat) (s : State) : Outcome State :=
  match whileLoop (fun st => decide (st.averageOps < n)) passBody fuel s with
  | Outcome.finished st => Outcome.finished (leave st)
  | Outcome.fault => Outcome.fault
  | Outcome.running st => Outcome.running st

/-- The state in which `main` enters the pass loop, for a loaded image. -/
def initial (image : Mat) : State :=
  { image := image, averagedImage := image.clone, averageOps := 0, files := [] }

/-- The program `main(argc, argv)` with `n = atoi(argv[1])` and `image` the result of
`imread(argv[2], 1)` (`none` when it has no data). With fewer than three arguments
`argv[1]` or `argv[2]` is a null pointer handed to `atoi` or `imread`. -/
def main (argc n : Int) (image : Option Mat) (fuel : Nat) : Outcome (Exit State) :=
  if argc < 3 then Outcome.fault
  else if argc ≠ 4 then Outcome.finished (Exit.refused (-1))
  else if n < 0 then Outcome.finished (Exit.refused (-1))
  else
    match image with
    | none => Outcome.finished (Exit.refused (-1))
    | some img =>
      match passLoop n fuel (initial img) with
      | Outcome.finished s =>
        Outcome.finished (Exit.completed 0
          { image := s.image, averagedImage := s.averagedImage, averageOps := s.averageOps
            files := s.files ++ [Written.output s.averagedImage] })
      | Outcome.fault => Outcome.fault
      | Outcome.running s => Outcome.running (Exit.completed 0 s)

end sequentialAverage

namespace SequentialTiming

/-- The program `main(argc, argv)` with `n = atoi(argv[1])` and `image` the result of
`imread(argv[2], 1)` (`none` when it has no data). With fewer than three arguments
`argv[1]` or `argv[2]` is a null pointer handed to `atoi` or `imread`. -/
def main (elapsed : Nat → ℚ) (argc n : Int) (image : Option Mat) (fuel : Nat) :
    Outcome (Exit State) :=
  if argc < 3 then Outcome.fault
  else if argc ≠ 3 then Outcome.finished (Exit.refused (-1))
  else if n < 1 then Outcome.finished (Exit.refused (-1))
  else
    match image with
    | none => Outcome.finished (Exit.refused (-1))
    | some img =>
      match doublingLoop elapsed n fuel (initial img) with
      | Outcome.finished s => Outcome.finished (Exit.completed 0 s)
      | Outcome.fault => Outcome.fault
      | Outcome.running s => Outcome.running (Exit.completed 0 s)

end SequentialTiming

namespace ParallelTiming

/-- The program `main(argc, argv)` with `n = atoi(argv[1])` and `image` the result of
`imread(argv[2], 1)` (`none` when it has no data). With fewer than three arguments
`argv[1]` or `argv[2]` is a null pointer handed to `atoi` or `imread`. -/
def main (elapsed : Nat → ℚ) (argc n : Int) (image : Option Mat) (fuel : Nat) :
    Outcome (Exit State) :=
  if argc < 3 then Outcome.fault
  else if argc ≠ 3 then Outcome.finished (Exit.refused (-1))
  else if n < 1 then Outcome.finished (Exit.refused (-1))
  else
    match image with
    | none => Outcome.finished (Exit.refused (-1))
    | some img =>
      match doublingLoop elapsed n fuel (initial img) with
      | Outcome.finished s => Outcome.finished (Exit.completed 0 s)
      | Outcome.fault => Outcome.fault
      | Outcome.running s => Outcome.running (Exit.completed 0 s)

end ParallelTiming

/-! ## The comparison utility `CompareImages` -/

namespace CompareImages

/-- What `main` prints before it returns. -/
inductive Message where
  | usage
  | noImageData
  | notSameDimensions
  | improperType
  | identical
  | notIdentical
deriving DecidableEq

/-- The inner loop `for (j = 0; j < cols; j++) { ... }` for a fixed row `i`, run over the
remaining values of `j`: the new value of `bIdentical`. A differing pixel sets it to
`FALSE` and leaves the inner loop. -/
def innerLoop (sequential parallel : Mat) (i : Int) : List Int → Bool → Option Bool
  | [], bIdentical => some bIdentical
  | j :: js, bIdentical =>
    match sequential.atVec3b i j, parallel.atVec3b i j with
    | some seqIntensity, some parIntensity =>
      if seqIntensity ≠ parIntensity then some false
      else innerLoop sequential parallel i js bIdentical
    | _, _ => none

/-- The outer loop `for (i = 0; i < rows; i++) { ... }`, run over the remaining values of
`i`. -/
def outerLoop (sequential parallel : Mat) (cols : Int) : List Int → Bool → Option Bool
  | [], bIdentical => some bIdentical
  | i :: is, bIdentical =>
    (innerLoop sequential parallel i (loopRangeLt 0 cols) bIdentical).bind
      (outerLoop sequential parallel cols is)

/-- The comparison of two loaded grids: `rows = sequential.rows`, `cols = parallel.cols`,
`bIdentical = TRUE`, then the two loops. -/
def compare (sequential parallel : Mat) : Option Bool :=
  let rows : Int := sequential.rows
  let cols : Int := parallel.cols
  outerLoop sequential parallel cols (loopRangeLt 0 rows) true

/-- The program `main(argc, argv)` with the results of the two calls of `imread`: exit
status and message. With fewer than three arguments a null pointer is handed to
`imread`. The depth of a loaded matrix is `CV_8U` by construction, so the test of the
image type never fires. -/
def main (argc : Int) (sequential parallel : Option Mat) : Option (Int × Message) :=
  if argc < 3 then none
  else if argc ≠ 3 then some (-1, Message.usage)
  else
    match sequential, parallel with
    | some seq, some par =>
      if seq.rows ≠ par.rows ∨ seq.cols ≠ par.cols then some (-1, Message.notSameDimensions)
      else
        (compare seq par).map
          (fun bIdentical => if bIdentical then (0, Message.identical) else (0, Message.notIdentical))
    | _, _ => some (-1, Message.noImageData)

end CompareImages

/-! ## The cells the kernel reads -/

/-- The cells at which the inner loop of the kernel evaluates `img.at<Vec3b>(i, j)`, for a
fixed row `i` and the remaining values of `j`. -/
def innerReads (img : Mat) (i : Int) : List Int → List (Int × Int)
  | [] => []
  | j :: js =>
    if i < 0 ∨ i > (img.rows : Int) - 1 then []
    else if j < 0 ∨ j > (img.cols : Int) - 1 then innerReads img i js
    else (i, j) :: innerReads img i js

/-- The cells at which `neighborhoodAverage` centred at `(r, c)` evaluates
`img.at<Vec3b>(i, j)`, in the order of its two loops. -/
def kernelReads (img : Mat) (r c : Int) : List (Int × Int) :=
  (loopRange (r - 1) (r + 1)).flatMap (fun i => innerReads img i (loopRange (c - 1) (c + 1)))

/-! ## Closed forms for the smoothing program -/

/-- The periodic images written during the first `p` passes over the grid `g`. -/
def checkpointsUpTo (g : Mat) (p : Nat) : List Written :=
  (List.range p).filterMap
    (fun i => if (i + 1) % 25 = 0 then some (Written.checkpoint ((i + 1 : Nat) : Int) (blur^[i + 1] g))
      else none)

/-- The state of the smoothing program at the head of its loop after `p` passes. -/
def smoothHead (g : Mat) (p : Nat) : sequentialAverage.State :=
  { image := blur^[p] g
    averagedImage := blur^[p] g
    averageOps := (p : Int)
    files := checkpointsUpTo g p }

/-! ## Extreme values of a channel -/

/-- The least value of a channel over the pixels of the grid (255 when it has no pixel). -/
def Mat.chanMin (m : Mat) (ch : Vec3b → Int) : Int := (m.data.map ch).foldr min 255

/-- The greatest value of a channel over the pixels of the grid (0 when it has no pixel). -/
def Mat.chanMax (m : Mat) (ch : Vec3b → Int) : Int := (m.data.map ch).foldr max 0

/-! ## Transposition -/

/-- The transpose of a grid: rows and columns are swapped, and pixel `(j, i)` of the
transpose is pixel `(i, j)` of the grid. -/
def Mat.transpose (m : Mat) : Mat :=
  { rows := m.cols
    cols := m.rows
    data := (List.range (m.cols * m.rows)).map
      (fun k => m.pixel ((k % m.rows : Nat) : Int) ((k / m.rows : Nat) : Int)) }

/-- A 2x3 grid with six different pixels. -/
def strip23 : Mat :=
  { rows := 2, cols := 3
    data := [⟨10, 20, 30⟩, ⟨40, 50, 60⟩, ⟨70, 80, 90⟩, ⟨100, 110, 120⟩, ⟨130, 140, 150⟩,
      ⟨255, 0, 7⟩] }

/-! ## Matrix access -/

theorem Mat.offset_lt {m : Mat} (hw : m.wf) {i j : Int} (hb : m.inBounds i j) :
    m.offset i j < m.data.length := by
  obtain ⟨h0, h1, h2, h3⟩ := hb
  unfold Mat.offset
  rw [hw]
  lift i to ℕ using h0
  lift j to ℕ using h2
  have h1' : i < m.rows := by exact_mod_cast h1
  have h3' : j < m.cols := by exact_mod_cast h3
  have : ((i : Int) * (m.cols : Int) + (j : Int)).toNat = i * m.cols + j := by
    have : ((i : Int) * (m.cols : Int) + (j : Int)) = ((i * m.cols + j : Nat) : Int) := by push_cast; ring
    rw [this]; exact Int.toNat_natCast _
  rw [this]
  calc i * m.cols + j < i * m.cols + m.cols := by omega
    _ = (i + 1) * m.cols := by ring
    _ ≤ m.rows * m.cols := Nat.mul_le_mul_right _ (by omega)

theorem Mat.offset_inj {m : Mat} {i j i' j' : Int} (hb : m.inBounds i j) (hb' : m.inBounds i' j')
    (h : m.offset i j = m.offset i' j') : i = i' ∧ j = j' := by
  obtain ⟨h0, h1, h2, h3⟩ := hb
  obtain ⟨h0', h1', h2', h3'⟩ := hb'
  unfold Mat.offset at h
  have e : i * (m.cols : Int) + j = i' * (m.cols : Int) + j' := by
    have a1 : 0 ≤ i * (m.cols : Int) + j := by positivity
    have a2 : 0 ≤ i' * (m.cols : Int) + j' := by positivity
    have := congrArg (fun n : Nat => (n : Int)) h
    simpa [Int.toNat_of_nonneg a1, Int.toNat_of_nonneg a2] using this
  have hi : i = i' := by
    by_contra hne
    rcases lt_or_gt_of_ne hne with hlt | hgt
    · have : (i + 1) * (m.cols : Int) ≤ i' * (m.cols : Int) :=
        mul_le_mul_of_nonneg_right (by omega) (by omega)
      nlinarith
    · have : (i' + 1) * (m.cols : Int) ≤ i * (m.cols : Int) :=
        mul_le_mul_of_nonneg_right (by omega) (by omega)
      nlinarith
  subst hi
  exact ⟨rfl, by linarith⟩

theorem Mat.atVec3b_eq_pixel {m : Mat} (hw : m.wf) {i j : Int} (hb : m.inBounds i j) :
    m.atVec3b i j = some (m.pixel i j) := by
  have hl := Mat.offset_lt hw hb
  simp [Mat.pixel, Mat.atVec3b, hb, List.getElem?_eq_getElem hl]

theorem Mat.store_eq_put {m : Mat} (hw : m.wf) {i j : Int} (hb : m.inBounds i j) (v : Vec3b) :
    m.store i j v = some (m.put i j v) := by
  have hl := Mat.offset_lt hw hb
  simp [Mat.store, Mat.put, hb, hl]

@[simp]
theorem Mat.put_rows (m : Mat) (i j : Int) (v : Vec3b) : (m.put i j v).rows = m.rows := rfl

@[simp]
theorem Mat.put_cols (m : Mat) (i j : Int) (v : Vec3b) : (m.put i j v).cols = m.cols := rfl

theorem Mat.put_wf {m : Mat} (hw : m.wf) (i j : Int) (v : Vec3b) : (m.put i j v).wf := by
  simpa [Mat.wf, Mat.put] using hw

theorem Mat.put_inBounds (m : Mat) (i j : Int) (v : Vec3b) (a b : Int) :
    (m.put i j v).inBounds a b ↔ m.inBounds a b := Iff.rfl

theorem Mat.pixel_put_same {m : Mat} (hw : m.wf) {i j : Int} (hb : m.inBounds i j) (v : Vec3b) :
    (m.put i j v).pixel i j = v := by
  have hl := Mat.offset_lt hw hb
  have hb' : (m.put i j v).inBounds i j := hb
  simp [Mat.pixel, Mat.atVec3b, hb']
  simp [Mat.put, Mat.offset, hb]
  have : (i * (m.cols : Int) + j).toNat < m.data.length := hl
  simp [List.getElem?_set, this]

theorem Mat.pixel_put_other {m : Mat} {i j a b : Int} (hb : m.inBounds i j)
    (hab : m.inBounds a b) (hne : ¬ (a = i ∧ b = j)) (v : Vec3b) :
    (m.put i j v).pixel a b = m.pixel a b := by
  have hoff : m.offset i j ≠ m.offset a b := fun h => hne (by
    have := Mat.offset_inj hb hab h
    exact ⟨this.1.symm, this.2.symm⟩)
  have hab' : (m.put i j v).inBounds a b := hab
  have e : (m.put i j v).offset a b = m.offset a b := rfl
  simp only [Mat.pixel, Mat.atVec3b, hab', hab, if_true, e]
  simp only [Mat.put]
  rw [List.getElem?_set_ne hoff]

theorem Mat.put_put (m : Mat) (i j : Int) (v w : Vec3b) :
    (m.put i j v).put i j w = m.put i j w := by
  simp [Mat.put, Mat.offset, List.set_set]

/-- Two well-formed grids of the same dimensions with the same pixels are equal. -/
theorem Mat.ext_pixel {m m' : Mat} (hw : m.wf) (hw' : m'.wf) (hr : m.rows = m'.rows)
    (hc : m.cols = m'.cols)
    (h : ∀ i j : Int, m.inBounds i j → m.pixel i j = m'.pixel i j) : m = m' := by
  obtain ⟨r, c, d⟩ := m
  obtain ⟨r', c', d'⟩ := m'
  simp only at hr hc
  subst hr hc
  simp only [Mat.mk.injEq, true_and]
  unfold Mat.wf at hw hw'
  simp only at hw hw'
  apply List.ext_getElem (by rw [hw, hw'])
  intro n h1 h2
  have hcpos : 0 < c := by
    rcases Nat.eq_zero_or_pos c with h0 | h0
    · subst h0; simp at hw; omega
    · exact h0
  have hn : n < r * c := by omega
  have hb : Mat.inBounds ⟨r, c, d⟩ ((n / c : Nat) : Int) ((n % c : Nat) : Int) := by
    refine ⟨by positivity, ?_, by positivity, ?_⟩
    · simp only; exact_mod_cast (Nat.div_lt_iff_lt_mul hcpos).2 hn
    · simp only; exact_mod_cast Nat.mod_lt _ hcpos
  have hb' : Mat.inBounds ⟨r, c, d'⟩ ((n / c : Nat) : Int) ((n % c : Nat) : Int) := hb
  have := h _ _ hb
  have hoff : (((n / c : Nat) : Int) * (c : Int) + ((n % c : Nat) : Int)).toNat = n := by
    have : (((n / c : Nat) : Int) * (c : Int) + ((n % c : Nat) : Int)) = ((n : Nat) : Int) := by
      have := Nat.div_add_mod n c
      push_cast at this ⊢
      have h2 := congrArg (fun x : Nat => (x : Int)) this
      push_cast at h2
      linarith
    rw [this]; exact Int.toNat_natCast _
  simp only [Mat.pixel, Mat.atVec3b, hb, hb', if_true, Mat.offset, hoff] at this
  rw [List.getElem?_eq_getElem h1, List.getElem?_eq_getElem h2] at this
  simpa using this

/-! ## The kernel loops in closed form -/

theorem loopRange_window (x : Int) : loopRange (x - 1) (x + 1) = [x - 1, x, x + 1] := by
  have h : (x + 1 + 1 - (x - 1)).toNat = 3 := by omega
  simp [loopRange, h, List.range_succ]
  omega

theorem cell_of_not_inBounds {img : Mat} (ch : Vec3b → Int) {i j : Int}
    (h : ¬ img.inBounds i j) : cell img ch i j = 0 := by
  simp [cell, h]

theorem rowSum_of_row_out {img : Mat} (ch : Vec3b → Int) {i : Int}
    (h : i < 0 ∨ i > (img.rows : Int) - 1) (J : List Int) : rowSum img ch i J = 0 := by
  unfold rowSum
  induction J with
  | nil => rfl
  | cons j js ih =>
    have : ¬ img.inBounds i j := by
      rintro ⟨a, b, -, -⟩; omega
    simp [cell_of_not_inBounds ch this, ih]

theorem rowSum_cons (img : Mat) (ch : Vec3b → Int) (i j : Int) (J : List Int) :
    rowSum img ch i (j :: J) = cell img ch i j + rowSum img ch i J := by
  simp [rowSum]

theorem innerLoop_eq {img : Mat} (hw : img.wf) (i : Int) (J : List Int) (s : Sums) :
    innerLoop img i J s = some
      { sumBlue := s.sumBlue + rowSum img chBlue i J
        sumGreen := s.sumGreen + rowSum img chGreen i J
        sumRed := s.sumRed + rowSum img chRed i J
        count := s.count + rowSum img chOne i J } := by
  induction J generalizing s with
  | nil => simp [innerLoop, rowSum]
  | cons j js ih =>
    unfold innerLoop
    by_cases hrow : i < 0 ∨ i > (img.rows : Int) - 1
    · simp [hrow, rowSum_of_row_out _ hrow]
    · rw [if_neg hrow]
      by_cases hcol : j < 0 ∨ j > (img.cols : Int) - 1
      · rw [if_pos hcol, ih]
        have hnb : ¬ img.inBounds i j := by
          rintro ⟨-, -, a, b⟩; omega
        simp [rowSum_cons, cell_of_not_inBounds _ hnb]
      · rw [if_neg hcol]
        have hb : img.inBounds i j := by
          refine ⟨?_, ?_, ?_, ?_⟩ <;> omega
        rw [Mat.atVec3b_eq_pixel hw hb]
        simp only []
        rw [ih]
        simp only [rowSum_cons, cell, hb, if_true, chBlue, chGreen, chRed, chOne]
        simp only [add_assoc]

theorem outerLoop_eq {img : Mat} (hw : img.wf) (startCol endCol : Int) (L : List Int) (s : Sums) :
    outerLoop img startCol endCol L s = some
      { sumBlue := s.sumBlue + gridSum img chBlue L (loopRange startCol endCol)
        sumGreen := s.sumGreen + gridSum img chGreen L (loopRange startCol endCol)
        sumRed := s.sumRed + gridSum img chRed L (loopRange startCol endCol)
        count := s.count + gridSum img chOne L (loopRange startCol endCol) } := by
  induction L generalizing s with
  | nil => simp [outerLoop, gridSum]
  | cons i is ih =>
    unfold outerLoop
    rw [innerLoop_eq hw, Option.some_bind, ih]
    simp only [gridSum, List.map_cons, List.sum_cons, add_assoc]

theorem kernelSums_eq {img : Mat} (hw : img.wf) (r c : Int) :
    kernelSums img r c = some
      { sumBlue := windowSum img chBlue r c
        sumGreen := windowSum img chGreen r c
        sumRed := windowSum img chRed r c
        count := windowSum img chOne r c } := by
  unfold kernelSums
  simp only [outerLoop_eq hw, loopRange_window, windowSum, zero_add]

/-! ## The kernel as a pixel update -/

theorem cell_chOne_nonneg (img : Mat) (i j : Int) : 0 ≤ cell img chOne i j := by
  unfold cell chOne; split <;> omega

theorem cell_chOne_of_inBounds {img : Mat} {i j : Int} (h : img.inBounds i j) :
    cell img chOne i j = 1 := by
  simp [cell, chOne, h]

theorem windowSum_unfold (img : Mat) (ch : Vec3b → Int) (r c : Int) :
    windowSum img ch r c =
      (cell img ch (r - 1) (c - 1) + (cell img ch (r - 1) c + cell img ch (r - 1) (c + 1)))
      + ((cell img ch r (c - 1) + (cell img ch r c + cell img ch r (c + 1)))
      + (cell img ch (r + 1) (c - 1) + (cell img ch (r + 1) c + cell img ch (r + 1) (c + 1)))) := by
  simp [windowSum, gridSum, rowSum]

theorem windowSum_chOne_pos {img : Mat} {r c : Int} (h : img.inBounds r c) :
    1 ≤ windowSum img chOne r c := by
  rw [windowSum_unfold, cell_chOne_of_inBounds h]
  have h1 := cell_chOne_nonneg img (r - 1) (c - 1)
  have h2 := cell_chOne_nonneg img (r - 1) c
  have h3 := cell_chOne_nonneg img (r - 1) (c + 1)
  have h4 := cell_chOne_nonneg img r (c - 1)
  have h5 := cell_chOne_nonneg img r (c + 1)
  have h6 := cell_chOne_nonneg img (r + 1) (c - 1)
  have h7 := cell_chOne_nonneg img (r + 1) c
  have h8 := cell_chOne_nonneg img (r + 1) (c + 1)
  omega

theorem Mat.storeChannel_eq_put {m : Mat} (hw : m.wf) {r c : Int} (hb : m.inBounds r c)
    (k : Nat) (x : uchar) :
    m.storeChannel r c k x = some (m.put r c ((m.pixel r c).setVal k x)) := by
  unfold Mat.storeChannel
  rw [Mat.atVec3b_eq_pixel hw hb, Option.some_bind, Mat.store_eq_put hw hb]

theorem storeChannels_eq_put {m : Mat} (hw : m.wf) {r c : Int} (hb : m.inBounds r c)
    (x0 x1 x2 : uchar) :
    ((m.storeChannel r c 0 x0).bind (fun m1 => (m1.storeChannel r c 1 x1).bind
      (fun m2 => m2.storeChannel r c 2 x2))) = some (m.put r c ⟨x0, x1, x2⟩) := by
  have hw1 := Mat.put_wf hw r c ((m.pixel r c).setVal 0 x0)
  have hb1 : (m.put r c ((m.pixel r c).setVal 0 x0)).inBounds r c := hb
  rw [Mat.storeChannel_eq_put hw hb, Option.some_bind, Mat.storeChannel_eq_put hw1 hb1,
    Option.some_bind]
  have hw2 := Mat.put_wf hw1 r c
    (((m.put r c ((m.pixel r c).setVal 0 x0)).pixel r c).setVal 1 x1)
  rw [Mat.storeChannel_eq_put hw2 hb1]
  simp only [Mat.put_put, Mat.pixel_put_same hw hb, Mat.pixel_put_same hw1 hb1, Vec3b.setVal]

theorem neighborhoodAverage_eq_put {img result : Mat} (hw : img.wf) (hwr : result.wf)
    {r c : Int} (hb : img.inBounds r c) (hbr : result.inBounds r c) :
    neighborhoodAverage img result r c = some (result.put r c (avgPixel img r c)) := by
  have hpos := windowSum_chOne_pos hb
  have hne : windowSum img chOne r c ≠ 0 := by omega
  unfold neighborhoodAverage
  simp only [bind, kernelSums_eq hw, Option.some_bind, cdiv, hne, if_false]
  exact storeChannels_eq_put hwr hbr _ _ _

theorem parallel_neighborhoodAverage_eq (g : ParallelTiming.Globals) (r c : Int) :
    ParallelTiming.neighborhoodAverage g r c =
      (neighborhoodAverage g.IMAGE g.RESULT_IMAGE r c).map
        (fun m => { g with RESULT_IMAGE := m }) := by
  unfold ParallelTiming.neighborhoodAverage neighborhoodAverage
  cases kernelSums g.IMAGE r c with
  | none => rfl
  | some s =>
    cases hb : cdiv s.sumBlue s.count with
    | none => simp [hb]
    | some qb =>
      cases hg : cdiv s.sumGreen s.count with
      | none => simp [hb, hg]
      | some qg =>
        cases hr : cdiv s.sumRed s.count with
        | none => simp [hb, hg, hr]
        | some qr =>
          simp only [hb, hg, hr, Option.bind_eq_bind, Option.some_bind]
          cases g.RESULT_IMAGE.storeChannel r c 0 (toUchar ((saturate_cast qb).val : Int)) with
          | none => rfl
          | some m1 =>
            simp only [Option.some_bind]
            cases m1.storeChannel r c 1 (toUchar ((saturate_cast qg).val : Int)) with
            | none => rfl
            | some m2 =>
              simp only [Option.some_bind]
              cases m2.storeChannel r c 2 (toUchar ((saturate_cast qr).val : Int)) with
              | none => rfl
              | some m3 => rfl

/-! ## Running the kernel over a list of cells -/

theorem mem_loopRangeLt {lo hi x : Int} : x ∈ loopRangeLt lo hi ↔ lo ≤ x ∧ x < hi := by
  unfold loopRangeLt
  simp only [List.mem_map, List.mem_range]
  constructor
  · rintro ⟨k, hk, rfl⟩
    omega
  · rintro ⟨h1, h2⟩
    exact ⟨(x - lo).toNat, by omega, by omega⟩

theorem mem_rowCells {cols : Nat} {i : Int} {p : Int × Int} :
    p ∈ rowCells cols i ↔ p.1 = i ∧ 0 ≤ p.2 ∧ p.2 < (cols : Int) := by
  unfold rowCells
  simp only [List.mem_map, mem_loopRangeLt]
  constructor
  · rintro ⟨j, hj, rfl⟩
    exact ⟨rfl, hj⟩
  · rintro ⟨h1, h2⟩
    exact ⟨p.2, h2, by rw [← h1]⟩

theorem mem_allCells {img : Mat} {p : Int × Int} : p ∈ allCells img ↔ img.inBounds p.1 p.2 := by
  unfold allCells Mat.inBounds
  simp only [List.mem_flatMap, mem_loopRangeLt, mem_rowCells]
  constructor
  · rintro ⟨i, ⟨h1, h2⟩, h3, h4, h5⟩
    subst h3
    exact ⟨h1, h2, h4, h5⟩
  · rintro ⟨h1, h2, h3, h4⟩
    exact ⟨p.1, ⟨h1, h2⟩, rfl, h3, h4⟩

theorem cellsLoop_nil (img res : Mat) : cellsLoop img [] res = some res := rfl

theorem cellsLoop_cons (img res : Mat) (p : Int × Int) (ps : List (Int × Int)) :
    cellsLoop img (p :: ps) res =
      (neighborhoodAverage img res p.1 p.2).bind (cellsLoop img ps) := by
  simp [cellsLoop, List.foldlM_cons]

theorem cellsLoop_append (img res : Mat) (ps qs : List (Int × Int)) :
    cellsLoop img (ps ++ qs) res = (cellsLoop img ps res).bind (cellsLoop img qs) := by
  simp [cellsLoop, List.foldlM_append]

theorem colLoop_eq_cellsLoop (img : Mat) (i : Int) (res : Mat) :
    colLoop img i res = cellsLoop img (rowCells img.cols i) res := by
  simp [colLoop, cellsLoop, rowCells, List.foldlM_map]

theorem foldlM_cellsLoop (img : Mat) (f : Int → List (Int × Int)) (L : List Int) (res : Mat) :
    L.foldlM (fun acc i => cellsLoop img (f i) acc) res = cellsLoop img (L.flatMap f) res := by
  induction L generalizing res with
  | nil => rfl
  | cons i is ih =>
    rw [List.foldlM_cons, List.flatMap_cons, cellsLoop_append]
    cases cellsLoop img (f i) res with
    | none => rfl
    | some m => exact ih m

theorem sweep_eq_cellsLoop (img res : Mat) : sweep img res = cellsLoop img (allCells img) res := by
  unfold sweep allCells
  simp only [colLoop_eq_cellsLoop]
  exact foldlM_cellsLoop img _ _ res

/-- The kernel run over in-range cells succeeds, keeps the dimensions, and changes exactly
the listed cells, each to the kernel value computed from the input grid. -/
theorem cellsLoop_spec {img : Mat} (hw : img.wf) (cells : List (Int × Int))
    (hcells : ∀ p ∈ cells, img.inBounds p.1 p.2) (res : Mat) (hwr : res.wf)
    (hr : res.rows = img.rows) (hc : res.cols = img.cols) :
    ∃ out, cellsLoop img cells res = some out ∧ out.wf ∧ out.rows = img.rows ∧
      out.cols = img.cols ∧
      ∀ i j : Int, img.inBounds i j →
        out.pixel i j = if (i, j) ∈ cells then avgPixel img i j else res.pixel i j := by
  induction cells generalizing res with
  | nil => exact ⟨res, rfl, hwr, hr, hc, fun i j _ => by simp⟩
  | cons p ps ih =>
    have hp : img.inBounds p.1 p.2 := hcells p (List.mem_cons_self _ _)
    have hpr : res.inBounds p.1 p.2 := by
      unfold Mat.inBounds at hp ⊢; rw [hr, hc]; exact hp
    obtain ⟨out, h1, h2, h3, h4, h5⟩ := ih (fun q hq => hcells q (List.mem_cons_of_mem _ hq))
      (res.put p.1 p.2 (avgPixel img p.1 p.2)) (Mat.put_wf hwr _ _ _) hr hc
    refine ⟨out, ?_, h2, h3, h4, ?_⟩
    · rw [cellsLoop_cons, neighborhoodAverage_eq_put hw hwr hp hpr, Option.some_bind, h1]
    · intro i j hij
      have hijr : res.inBounds i j := by
        unfold Mat.inBounds at hij ⊢; rw [hr, hc]; exact hij
      rw [h5 i j hij]
      by_cases hmem : (i, j) ∈ ps
      · simp [hmem]
      · by_cases hpe : i = p.1 ∧ j = p.2
        · obtain ⟨rfl, rfl⟩ := hpe
          simp [Mat.pixel_put_same hwr hpr]
        · have hne : (i, j) ≠ p := fun h => hpe (by rw [← h]; exact ⟨rfl, rfl⟩)
          rw [if_neg hmem, Mat.pixel_put_other hpr hijr hpe]
          simp [hmem, hne]

theorem blur_wf (img : Mat) : (blur img).wf := by
  simp [Mat.wf, blur]

theorem blur_pixel {img : Mat} {i j : Int} (h : img.inBounds i j) :
    (blur img).pixel i j = avgPixel img i j := by
  have hb : (blur img).inBounds i j := h
  obtain ⟨h0, h1, h2, h3⟩ := h
  have hl := Mat.offset_lt (blur_wf img) hb
  lift i to ℕ using h0
  lift j to ℕ using h2
  have h3' : j < img.cols := by exact_mod_cast h3
  have hoff : (blur img).offset (i : Int) (j : Int) = i * img.cols + j := by
    unfold Mat.offset
    have : ((i : Int) * ((blur img).cols : Int) + (j : Int)) = ((i * img.cols + j : Nat) : Int) := by
      simp [blur]
    rw [this]; exact Int.toNat_natCast _
  have hlen : i * img.cols + j < img.rows * img.cols := by
    have := hl; rw [hoff] at this; simpa [blur] using this
  have hdiv : (i * img.cols + j) / img.cols = i := by
    rw [Nat.mul_comm, Nat.mul_add_div (by omega), Nat.div_eq_of_lt h3']; simp
  have hmod : (i * img.cols + j) % img.cols = j := by
    rw [Nat.mul_comm, Nat.mul_add_mod, Nat.mod_eq_of_lt h3']
  simp only [Mat.pixel, Mat.atVec3b, hb, if_true, hoff]
  simp only [blur, List.getElem?_map, List.getElem?_range hlen, Option.map_some', Option.getD_some,
    hdiv, hmod]

/-- Running the kernel once over every cell of the grid, in any order and with any
repetitions, produces the averaged grid. -/
theorem cellsLoop_cover {img : Mat} (hw : img.wf) (cells : List (Int × Int))
    (hcells : ∀ p : Int × Int, p ∈ cells ↔ img.inBounds p.1 p.2) (res : Mat) (hwr : res.wf)
    (hr : res.rows = img.rows) (hc : res.cols = img.cols) :
    cellsLoop img cells res = some (blur img) := by
  obtain ⟨out, h1, h2, h3, h4, h5⟩ :=
    cellsLoop_spec hw cells (fun p hp => (hcells p).1 hp) res hwr hr hc
  rw [h1]
  congr 1
  apply Mat.ext_pixel h2 (blur_wf img) h3 h4
  intro i j hij
  have hij' : img.inBounds i j := by
    unfold Mat.inBounds at hij ⊢; rw [← h3, ← h4]; exact hij
  rw [h5 i j hij', blur_pixel hij', if_pos ((hcells (i, j)).2 hij')]

/-- The double loop of a sequential pass produces the averaged grid. -/
theorem sweep_eq_blur {img res : Mat} (hw : img.wf) (hwr : res.wf)
    (hr : res.rows = img.rows) (hc : res.cols = img.cols) :
    sweep img res = some (blur img) := by
  rw [sweep_eq_cellsLoop]
  exact cellsLoop_cover hw _ (fun p => mem_allCells) res hwr hr hc

/-! ## The row partition -/

theorem rowRange_eq {W rows : Int} (hr : 0 ≤ rows) (hW : 0 < W) (tid : Int) :
    ParallelTiming.rowRange W rows tid =
      (rows / W * tid,
        if tid = W - 1 then rows / W * tid + rows / W + rows % W
        else rows / W * tid + rows / W) := by
  have h1 : Int.tdiv rows W = rows / W := Int.tdiv_eq_ediv hr (le_of_lt hW)
  have h2 : Int.tmod rows W = rows % W := Int.tmod_eq_emod hr (le_of_lt hW)
  simp [ParallelTiming.rowRange, h1, h2]

/-- The last range ends at `rows`. -/
theorem rowRange_last {W rows : Int} (hr : 0 ≤ rows) (hW : 0 < W) :
    (ParallelTiming.rowRange W rows (W - 1)).2 = rows := by
  rw [rowRange_eq hr hW]
  simp only [if_true]
  have := Int.ediv_add_emod rows W
  have e : rows / W * (W - 1) + rows / W = W * (rows / W) := by ring
  rw [e]; exact this

/-- The ranges are laid out one after the other. -/
theorem rowRange_snd_le_fst {W rows : Int} (hr : 0 ≤ rows) (hW : 0 < W) {t t' : Int}
    (h : t < t') (h' : t' < W) :
    (ParallelTiming.rowRange W rows t).2 ≤ (ParallelTiming.rowRange W rows t').1 := by
  rw [rowRange_eq hr hW, rowRange_eq hr hW]
  have hne : t ≠ W - 1 := by omega
  simp only [if_neg hne]
  have hq : 0 ≤ rows / W := Int.ediv_nonneg hr (le_of_lt hW)
  have : rows / W * (t + 1) ≤ rows / W * t' := mul_le_mul_of_nonneg_left (by omega) hq
  linarith

theorem rowRange_fst_nonneg {W rows : Int} (hr : 0 ≤ rows) (hW : 0 < W) {t : Int} (ht : 0 ≤ t) :
    0 ≤ (ParallelTiming.rowRange W rows t).1 := by
  rw [rowRange_eq hr hW]
  exact mul_nonneg (Int.ediv_nonneg hr (le_of_lt hW)) ht

theorem rowRange_snd_le_rows {W rows : Int} (hr : 0 ≤ rows) (hW : 0 < W) {t : Int}
    (ht : t < W) : (ParallelTiming.rowRange W rows t).2 ≤ rows := by
  by_cases hl : t = W - 1
  · rw [hl, rowRange_last hr hW]
  · have h1 := rowRange_snd_le_fst hr hW (show t < W - 1 by omega) (show W - 1 < W by omega)
    have h2 : (ParallelTiming.rowRange W rows (W - 1)).1 ≤ (ParallelTiming.rowRange W rows (W - 1)).2 := by
      rw [rowRange_eq hr hW]
      simp only [if_true]
      have hq : 0 ≤ rows / W := Int.ediv_nonneg hr (le_of_lt hW)
      have hm : 0 ≤ rows % W := Int.emod_nonneg _ (by omega)
      linarith
    rw [rowRange_last hr hW] at h2
    exact le_trans h1 h2

/-- Every row of the grid lies in the range of some thread. -/
theorem rowRange_cover {W rows : Int} (hr : 0 ≤ rows) (hW : 0 < W) {x : Int} (h0 : 0 ≤ x)
    (h1 : x < rows) :
    ∃ t, 0 ≤ t ∧ t < W ∧ (ParallelTiming.rowRange W rows t).1 ≤ x ∧
      x < (ParallelTiming.rowRange W rows t).2 := by
  have hq : 0 ≤ rows / W := Int.ediv_nonneg hr (le_of_lt hW)
  by_cases hx : x < rows / W * (W - 1)
  · have hqpos : 0 < rows / W := by
      rcases lt_or_eq_of_le hq with h | h
      · exact h
      · rw [← h] at hx; simp at hx; omega
    refine ⟨x / (rows / W), Int.ediv_nonneg h0 hq, ?_, ?_, ?_⟩
    · have : x / (rows / W) < W - 1 := by
        apply Int.ediv_lt_of_lt_mul hqpos
        rw [mul_comm]; exact hx
      omega
    · rw [rowRange_eq hr hW]
      simp only
      have := Int.ediv_add_emod x (rows / W)
      have := Int.emod_nonneg x (ne_of_gt hqpos)
      linarith
    · have hlt : x / (rows / W) < W - 1 := by
        apply Int.ediv_lt_of_lt_mul hqpos
        rw [mul_comm]; exact hx
      rw [rowRange_eq hr hW]
      simp only [if_neg (ne_of_lt hlt)]
      have := Int.ediv_add_emod x (rows / W)
      have := Int.emod_lt_of_pos x hqpos
      linarith
  · refine ⟨W - 1, by omega, by omega, ?_, ?_⟩
    · rw [rowRange_eq hr hW]
      simp only
      omega
    · rw [rowRange_last hr hW]; exact h1

/-! ## The parallel pass -/

theorem parallel_cells_fold (cells : List (Int × Int)) (g : ParallelTiming.Globals) :
    cells.foldlM (fun st p => ParallelTiming.neighborhoodAverage st p.1 p.2) g =
      (cellsLoop g.IMAGE cells g.RESULT_IMAGE).map (fun m => { g with RESULT_IMAGE := m }) := by
  induction cells generalizing g with
  | nil => rfl
  | cons p ps ih =>
    rw [List.foldlM_cons, cellsLoop_cons, parallel_neighborhoodAverage_eq]
    cases neighborhoodAverage g.IMAGE g.RESULT_IMAGE p.1 p.2 with
    | none => rfl
    | some m =>
      simp only [Option.map_some', Option.bind_eq_bind, Option.some_bind]
      rw [ih]

theorem parallel_row_fold (L : List Int) (g : ParallelTiming.Globals) :
    L.foldlM (fun st i => (loopRangeLt 0 st.IMAGE.cols).foldlM
        (fun st' j => ParallelTiming.neighborhoodAverage st' i j) st) g =
      (cellsLoop g.IMAGE (L.flatMap (rowCells g.IMAGE.cols)) g.RESULT_IMAGE).map
        (fun m => { g with RESULT_IMAGE := m }) := by
  induction L generalizing g with
  | nil => rfl
  | cons i is ih =>
    rw [List.foldlM_cons, List.flatMap_cons, cellsLoop_append]
    have h := parallel_cells_fold (rowCells g.IMAGE.cols i) g
    simp only [rowCells, List.foldlM_map] at h
    rw [h]
    simp only [rowCells]
    cases cellsLoop g.IMAGE (List.map (fun j => (i, j)) (loopRangeLt 0 g.IMAGE.cols))
        g.RESULT_IMAGE with
    | none => rfl
    | some m =>
      simp only [Option.map_some', Option.bind_eq_bind, Option.some_bind]
      rw [ih]

theorem partition_eq_cellsLoop (g : ParallelTiming.Globals) (tid : Int) :
    ParallelTiming.partition g tid =
      (cellsLoop g.IMAGE (workerCells g.IMAGE tid) g.RESULT_IMAGE).map
        (fun m => { g with RESULT_IMAGE := m }) := by
  unfold ParallelTiming.partition workerCells
  exact parallel_row_fold _ g

theorem runWorkers_eq_cellsLoop (order : List Int) (g : ParallelTiming.Globals) :
    ParallelTiming.runWorkers order g =
      (cellsLoop g.IMAGE (order.flatMap (workerCells g.IMAGE)) g.RESULT_IMAGE).map
        (fun m => { g with RESULT_IMAGE := m }) := by
  unfold ParallelTiming.runWorkers
  induction order generalizing g with
  | nil => rfl
  | cons t ts ih =>
    rw [List.foldlM_cons, List.flatMap_cons, cellsLoop_append, partition_eq_cellsLoop]
    cases cellsLoop g.IMAGE (workerCells g.IMAGE t) g.RESULT_IMAGE with
    | none => rfl
    | some m =>
      simp only [Option.map_some', Option.bind_eq_bind, Option.some_bind]
      rw [ih]

theorem mem_workerCells {img : Mat} {tid : Int} {p : Int × Int} :
    p ∈ workerCells img tid ↔
      (ParallelTiming.rowRange ParallelTiming.NUM_THREADS img.rows tid).1 ≤ p.1 ∧
      p.1 < (ParallelTiming.rowRange ParallelTiming.NUM_THREADS img.rows tid).2 ∧
      0 ≤ p.2 ∧ p.2 < (img.cols : Int) := by
  unfold workerCells
  simp only [List.mem_flatMap, mem_loopRangeLt, mem_rowCells]
  constructor
  · rintro ⟨i, ⟨h1, h2⟩, h3, h4, h5⟩
    subst h3
    exact ⟨h1, h2, h4, h5⟩
  · rintro ⟨h1, h2, h3, h4⟩
    exact ⟨p.1, ⟨h1, h2⟩, rfl, h3, h4⟩

/-- The threads of an order that names every thread, and only threads, visit exactly the
cells of the grid. -/
theorem mem_order_workerCells {img : Mat} {order : List Int}
    (horder : ∀ t : Int, t ∈ order ↔ 0 ≤ t ∧ t < ParallelTiming.NUM_THREADS) (p : Int × Int) :
    p ∈ order.flatMap (workerCells img) ↔ img.inBounds p.1 p.2 := by
  have hr : (0 : Int) ≤ (img.rows : Int) := by positivity
  have hW : (0 : Int) < ParallelTiming.NUM_THREADS := by decide
  simp only [List.mem_flatMap, mem_workerCells, horder]
  constructor
  · rintro ⟨t, ⟨ht0, ht1⟩, h1, h2, h3, h4⟩
    have a := rowRange_fst_nonneg hr hW ht0
    have b := rowRange_snd_le_rows hr hW ht1
    exact ⟨by omega, by omega, h3, h4⟩
  · rintro ⟨h1, h2, h3, h4⟩
    obtain ⟨t, ht0, ht1, a, b⟩ := rowRange_cover hr hW h1 h2
    exact ⟨t, ⟨ht0, ht1⟩, a, b, h3, h4⟩

/-- Whatever the order in which the threads run, they leave the averaged grid in
`RESULT_IMAGE` and nothing else changes. -/
theorem runWorkers_eq_blur {g : ParallelTiming.Globals} {order : List Int}
    (horder : ∀ t : Int, t ∈ order ↔ 0 ≤ t ∧ t < ParallelTiming.NUM_THREADS)
    (hw : g.IMAGE.wf) (hwr : g.RESULT_IMAGE.wf) (hr : g.RESULT_IMAGE.rows = g.IMAGE.rows)
    (hc : g.RESULT_IMAGE.cols = g.IMAGE.cols) :
    ParallelTiming.runWorkers order g = some { g with RESULT_IMAGE := blur g.IMAGE } := by
  rw [runWorkers_eq_cellsLoop,
    cellsLoop_cover hw _ (mem_order_workerCells horder) _ hwr hr hc]
  rfl

theorem runParallel_eq_blur {g : ParallelTiming.Globals}
    (hw : g.IMAGE.wf) (hwr : g.RESULT_IMAGE.wf) (hr : g.RESULT_IMAGE.rows = g.IMAGE.rows)
    (hc : g.RESULT_IMAGE.cols = g.IMAGE.cols) :
    ParallelTiming.runParallel g = some { g with RESULT_IMAGE := blur g.IMAGE } :=
  runWorkers_eq_blur (fun t => by rw [mem_loopRangeLt]) hw hwr hr hc

/-! ## Repeated passes -/

@[simp]
theorem blur_rows (img : Mat) : (blur img).rows = img.rows := rfl

@[simp]
theorem blur_cols (img : Mat) : (blur img).cols = img.cols := rfl

theorem blur_iterate_wf {img : Mat} (hw : img.wf) (k : Nat) : (blur^[k] img).wf := by
  cases k with
  | zero => exact hw
  | succ n => rw [Function.iterate_succ_apply']; exact blur_wf _

theorem blur_iterate_dims (img : Mat) (k : Nat) :
    (blur^[k] img).rows = img.rows ∧ (blur^[k] img).cols = img.cols := by
  induction k with
  | zero => exact ⟨rfl, rfl⟩
  | succ n ih => rw [Function.iterate_succ_apply']; exact ih

theorem length_loopRangeLt (lo hi : Int) : (loopRangeLt lo hi).length = (hi - lo).toNat := by
  simp [loopRangeLt]

theorem seq_passBody_eq {s : SequentialTiming.State} (h : seqOk s) :
    SequentialTiming.passBody s = some (seqAfter 1 s) := by
  obtain ⟨h1, h2, h3, h4⟩ := h
  simp [SequentialTiming.passBody, sweep_eq_blur h1 h2 h3 h4, seqAfter, Mat.clone]

theorem par_passBody_eq {s : ParallelTiming.State} (h : parOk s) :
    ParallelTiming.passBody s = some (parAfter 1 s) := by
  obtain ⟨h1, h2, h3, h4⟩ := h
  simp [ParallelTiming.passBody, runParallel_eq_blur h1 h2 h3 h4, parAfter, Mat.clone]

theorem seqOk_after {s : SequentialTiming.State} (h : seqOk s) (k : Nat) : seqOk (seqAfter k s) := by
  unfold seqAfter
  split
  · exact h
  · exact ⟨blur_iterate_wf h.1 k, blur_iterate_wf h.1 k, rfl, rfl⟩

theorem parOk_after {s : ParallelTiming.State} (h : parOk s) (k : Nat) : parOk (parAfter k s) := by
  unfold parAfter
  split
  · exact h
  · exact ⟨blur_iterate_wf h.1 k, blur_iterate_wf h.1 k, rfl, rfl⟩

theorem seqAfter_succ (k : Nat) (s : SequentialTiming.State) :
    seqAfter k (seqAfter 1 s) = seqAfter (k + 1) s := by
  unfold seqAfter
  by_cases hk : k = 0
  · subst hk; simp
  · simp [hk, Function.iterate_succ_apply]

theorem parAfter_succ (k : Nat) (s : ParallelTiming.State) :
    parAfter k (parAfter 1 s) = parAfter (k + 1) s := by
  unfold parAfter
  by_cases hk : k = 0
  · subst hk; simp
  · simp [hk, Function.iterate_succ_apply]

theorem seq_fold_passBody {α : Type} (L : List α) {s : SequentialTiming.State} (h : seqOk s) :
    L.foldlM (fun st _ => SequentialTiming.passBody st) s = some (seqAfter L.length s) := by
  induction L generalizing s with
  | nil => simp [seqAfter]
  | cons a as ih =>
    rw [List.foldlM_cons, seq_passBody_eq h]
    simp only [Option.bind_eq_bind, Option.some_bind]
    rw [ih (seqOk_after h 1), seqAfter_succ, List.length_cons]

theorem par_fold_passBody {α : Type} (L : List α) {s : ParallelTiming.State} (h : parOk s) :
    L.foldlM (fun st _ => ParallelTiming.passBody st) s = some (parAfter L.length s) := by
  induction L generalizing s with
  | nil => simp [parAfter]
  | cons a as ih =>
    rw [List.foldlM_cons, par_passBody_eq h]
    simp only [Option.bind_eq_bind, Option.some_bind]
    rw [ih (parOk_after h 1), parAfter_succ, List.length_cons]

/-- The pass loop of the sequential harness performs `averageOps` passes. -/
theorem seq_passLoop_eq {s : SequentialTiming.State} (h : seqOk s) :
    SequentialTiming.passLoop s = some (seqAfter s.averageOps.toNat s) := by
  unfold SequentialTiming.passLoop
  rw [seq_fold_passBody _ h, length_loopRangeLt]
  simp

/-- The pass loop of the parallel harness performs `averageOps` passes. -/
theorem par_passLoop_eq {s : ParallelTiming.State} (h : parOk s) :
    ParallelTiming.passLoop s = some (parAfter s.averageOps.toNat s) := by
  unfold ParallelTiming.passLoop
  rw [par_fold_passBody _ h, length_loopRangeLt]
  simp

theorem seqAfter_image (k : Nat) (s : SequentialTiming.State) :
    (seqAfter k s).image = blur^[k] s.image := by
  unfold seqAfter; split
  · next h => subst h; rfl
  · rfl

theorem parAfter_image (k : Nat) (s : ParallelTiming.State) :
    (parAfter k s).g.IMAGE = blur^[k] s.g.IMAGE := by
  unfold parAfter; split
  · next h => subst h; rfl
  · rfl

/-! ## The doubling loop -/

theorem whileLoop_zero {σ : Type} (guard : σ → Bool) (body : σ → Option σ) (s : σ) :
    whileLoop guard body 0 s = if guard s then .running s else .finished s := rfl

theorem whileLoop_running_guard {σ : Type} {guard : σ → Bool} {body : σ → Option σ}
    {fuel : Nat} {s s1 : σ} (h : whileLoop guard body fuel s = .running s1) : guard s1 = true := by
  induction fuel generalizing s with
  | zero =>
    rw [whileLoop_zero] at h
    split at h
    · next hg => cases h; exact hg
    · cases h
  | succ k ih =>
    unfold whileLoop at h
    split at h
    · split at h
      · cases h
      · exact ih h
    · cases h

/-- One more iteration after a bounded run that is still running. -/
theorem whileLoop_succ_of_running {σ : Type} {guard : σ → Bool} {body : σ → Option σ}
    {fuel : Nat} {s s1 s2 : σ} (h : whileLoop guard body fuel s = .running s1)
    (hb : body s1 = some s2) :
    whileLoop guard body (fuel + 1) s = if guard s2 then .running s2 else .finished s2 := by
  induction fuel generalizing s with
  | zero =>
    rw [whileLoop_zero] at h
    split at h
    · next hg =>
      cases h
      simp [whileLoop, hg, hb]
    · cases h
  | succ k ih =>
    unfold whileLoop at h
    split at h
    · next hg =>
      split at h
      · cases h
      · next s' hs' =>
        have := ih h
        rw [whileLoop, if_pos hg, hs']
        exact this
    · cases h

/-- A loop that has finished stays finished when given more fuel. -/
theorem whileLoop_finished_mono {σ : Type} {guard : σ → Bool} {body : σ → Option σ}
    {fuel : Nat} {s s1 : σ} (h : whileLoop guard body fuel s = .finished s1) (k : Nat) :
    whileLoop guard body (fuel + k) s = .finished s1 := by
  induction fuel generalizing s with
  | zero =>
    rw [whileLoop_zero] at h
    split at h
    · cases h
    · next hg =>
      cases h
      cases k with
      | zero => simp [whileLoop, hg]
      | succ j => simp [whileLoop, hg]
  | succ n ih =>
    unfold whileLoop at h
    rw [show n + 1 + k = (n + k) + 1 by omega]
    split at h
    · next hg =>
      split at h
      · cases h
      · next s' hs' =>
        rw [whileLoop, if_pos hg, hs']
        exact ih h
    · next hg =>
      cases h
      simp [whileLoop, hg]

theorem wrap32_of_range {x : Int} (h1 : -2147483648 ≤ x) (h2 : x < 2147483648) : wrap32 x = x := by
  unfold wrap32; omega

theorem two_pow_le_of_le {m : Nat} (h : m ≤ 30) : (2 : Int) ^ m ≤ 1073741824 := by
  have : (2 : Int) ^ m ≤ 2 ^ 30 := pow_le_pow_right₀ (by norm_num) h
  simpa using this

theorem two_pow_pos_int (m : Nat) : (0 : Int) < 2 ^ m := by positivity

theorem toNat_two_pow (m : Nat) : ((2 : Int) ^ m).toNat = 2 ^ m := by
  have : ((2 : Int) ^ m) = ((2 ^ m : Nat) : Int) := by push_cast; rfl
  rw [this]; exact Int.toNat_natCast _

theorem seqHead_ok {g : Mat} (hw : g.wf) (e : Nat → ℚ) (m : Nat) : seqOk (seqHead e g m) := by
  unfold seqOk seqHead
  by_cases hm : m = 0
  · simp [hm, hw]
  · simp only [hm, if_false]
    refine ⟨hw, blur_iterate_wf hw _, ?_, ?_⟩
    · have := (blur_iterate_dims g (2 ^ (m - 1))).1; exact this
    · have := (blur_iterate_dims g (2 ^ (m - 1))).2; exact this

theorem parHead_ok {g : Mat} (hw : g.wf) (e : Nat → ℚ) (m : Nat) : parOk (parHead e g m) := by
  unfold parOk parHead
  by_cases hm : m = 0
  · simp [hm, hw]
  · simp only [hm, if_false]
    exact ⟨hw, blur_iterate_wf hw _, (blur_iterate_dims g _).1, (blur_iterate_dims g _).2⟩

theorem lines_succ (e : Nat → ℚ) (m : Nat) :
    (List.range (m + 1)).map (lineOf e) = (List.range m).map (lineOf e) ++
      [{ averageOps := 2 ^ m, ratioNum := e m
         ratioDen := if m = 0 then 0 else e (m - 1)
         total := ∑ j in Finset.range m, e j }] := by
  rw [List.range_succ, List.map_append]
  rfl

/-- One scale of the sequential harness, while the counter does not overflow. -/
theorem seq_scaleBody_head {g : Mat} (hw : g.wf) (e : Nat → ℚ) {m : Nat} (hm : m < 30) :
    SequentialTiming.scaleBody e (seqHead e g m) = some (seqHead e g (m + 1)) := by
  have hpos := two_pow_pos_int m
  have hle := two_pow_le_of_le (show m + 1 ≤ 30 by omega)
  have hwrap : wrap32 ((2 : Int) ^ m * 2) = 2 ^ (m + 1) := by
    rw [← pow_succ]
    exact wrap32_of_range (by have := two_pow_pos_int (m + 1); omega) (by omega)
  have hne : (2 : Nat) ^ m ≠ 0 := by positivity
  unfold SequentialTiming.scaleBody
  rw [seq_passLoop_eq (seqHead_ok hw e m)]
  simp only [Option.map_some', Option.some.injEq]
  have hk : (seqHead e g m).averageOps.toNat = 2 ^ m := toNat_two_pow m
  rw [hk]
  simp only [SequentialTiming.report, seqAfter, hne, if_false, seqHead, Mat.clone, hwrap,
    gt_iff_lt, hpos, if_true, Nat.add_sub_cancel, Nat.succ_ne_zero, lines_succ,
    Finset.sum_range_succ]

/-- One scale of the parallel harness, while the counter does not overflow. -/
theorem par_scaleBody_head {g : Mat} (hw : g.wf) (e : Nat → ℚ) {m : Nat} (hm : m < 30) :
    ParallelTiming.scaleBody e (parHead e g m) = some (parHead e g (m + 1)) := by
  have hpos := two_pow_pos_int m
  have hle := two_pow_le_of_le (show m + 1 ≤ 30 by omega)
  have hwrap : wrap32 ((2 : Int) ^ m * 2) = 2 ^ (m + 1) := by
    rw [← pow_succ]
    exact wrap32_of_range (by have := two_pow_pos_int (m + 1); omega) (by omega)
  have hne : (2 : Nat) ^ m ≠ 0 := by positivity
  unfold ParallelTiming.scaleBody
  rw [par_passLoop_eq (parHead_ok hw e m)]
  simp only [Option.map_some', Option.some.injEq]
  have hk : (parHead e g m).averageOps.toNat = 2 ^ m := toNat_two_pow m
  rw [hk]
  simp only [ParallelTiming.report, parAfter, hne, if_false, parHead, Mat.clone, hwrap,
    gt_iff_lt, hpos, if_true, Nat.add_sub_cancel, Nat.succ_ne_zero, lines_succ,
    Finset.sum_range_succ]

theorem seq_initial_eq_head (e : Nat → ℚ) (g : Mat) : SequentialTiming.initial g = seqHead e g 0 := by
  simp [SequentialTiming.initial, seqHead, Mat.clone]

theorem par_initial_eq_head (e : Nat → ℚ) (g : Mat) : ParallelTiming.initial g = parHead e g 0 := by
  simp [ParallelTiming.initial, parHead, Mat.clone]

/-- After `m` scales the sequential harness is at the head of scale `m`, as long as every
earlier pass count was within the bound and the counter has not overflowed. -/
theorem seq_loop_head {g : Mat} (hw : g.wf) (e : Nat → ℚ) (n : Int) {m : Nat} (hm : m ≤ 30)
    (hprev : ∀ i, i < m → (2 : Int) ^ i ≤ n) :
    SequentialTiming.doublingLoop e n m (SequentialTiming.initial g) =
      if (2 : Int) ^ m ≤ n then .running (seqHead e g m) else .finished (seqHead e g m) := by
  unfold SequentialTiming.doublingLoop
  induction m with
  | zero =>
    rw [whileLoop_zero, seq_initial_eq_head e]
    simp [seqHead]
  | succ k ih =>
    have hk : (2 : Int) ^ k ≤ n := hprev k (by omega)
    have h1 := ih (by omega) (fun i hi => hprev i (by omega))
    rw [if_pos hk] at h1
    rw [whileLoop_succ_of_running h1 (seq_scaleBody_head hw e (by omega))]
    simp [seqHead]

/-- After `m` scales the parallel harness is at the head of scale `m`, as long as every
earlier pass count was within the bound and the counter has not overflowed. -/
theorem par_loop_head {g : Mat} (hw : g.wf) (e : Nat → ℚ) (n : Int) {m : Nat} (hm : m ≤ 30)
    (hprev : ∀ i, i < m → (2 : Int) ^ i ≤ n) :
    ParallelTiming.doublingLoop e n m (ParallelTiming.initial g) =
      if (2 : Int) ^ m ≤ n then .running (parHead e g m) else .finished (parHead e g m) := by
  unfold ParallelTiming.doublingLoop
  induction m with
  | zero =>
    rw [whileLoop_zero, par_initial_eq_head e]
    simp [parHead]
  | succ k ih =>
    have hk : (2 : Int) ^ k ≤ n := hprev k (by omega)
    have h1 := ih (by omega) (fun i hi => hprev i (by omega))
    rw [if_pos hk] at h1
    rw [whileLoop_succ_of_running h1 (par_scaleBody_head hw e (by omega))]
    simp [parHead]

theorem two_pow_mono_int {i m : Nat} (h : i ≤ m) : (2 : Int) ^ i ≤ 2 ^ m :=
  pow_le_pow_right₀ (by norm_num) h

/-! ## The neighbourhood as a set -/

theorem window_toFinset (x : Int) : ([x - 1, x, x + 1] : List Int).toFinset = Finset.Icc (x - 1) (x + 1) := by
  ext y
  simp only [List.toFinset_cons, List.toFinset_nil, Finset.mem_insert, Finset.mem_singleton,
    Finset.mem_Icc, insert_emptyc_eq]
  omega

theorem window_nodup (x : Int) : ([x - 1, x, x + 1] : List Int).Nodup := by
  simp only [List.nodup_cons, List.mem_cons, List.mem_singleton, List.not_mem_nil,
    not_false_eq_true, List.nodup_nil, and_true, not_or]
  omega

theorem windowSum_eq_sum (img : Mat) (ch : Vec3b → Int) (r c : Int) :
    windowSum img ch r c = ∑ p in Spec.neighbourhood img r c, ch (img.pixel p.1 p.2) := by
  unfold Spec.neighbourhood
  rw [Finset.sum_filter, Finset.sum_product, ← window_toFinset, ← window_toFinset,
    List.sum_toFinset _ (window_nodup r)]
  unfold windowSum gridSum
  congr 1
  apply List.map_congr_left
  intro i _
  rw [List.sum_toFinset _ (window_nodup c)]
  rfl

theorem windowSum_chOne_eq_card (img : Mat) (r c : Int) :
    windowSum img chOne r c = ((Spec.neighbourhood img r c).card : Int) := by
  rw [windowSum_eq_sum]
  simp [chOne]

/-! ## Bounds on the accumulators -/

theorem colour_bounds {ch : Vec3b → Int} (h : IsColour ch) (v : Vec3b) : 0 ≤ ch v ∧ ch v ≤ 255 := by
  rcases h with rfl | rfl | rfl
  · have := v.val0.isLt; unfold chBlue; omega
  · have := v.val1.isLt; unfold chGreen; omega
  · have := v.val2.isLt; unfold chRed; omega

theorem cell_colour_bounds {ch : Vec3b → Int} (h : IsColour ch) (img : Mat) (i j : Int) :
    0 ≤ cell img ch i j ∧ cell img ch i j ≤ 255 * cell img chOne i j := by
  unfold cell
  split
  · have := colour_bounds h (img.pixel i j); simp only [chOne]; omega
  · omega

theorem windowSum_colour_bounds {ch : Vec3b → Int} (h : IsColour ch) (img : Mat) (r c : Int) :
    0 ≤ windowSum img ch r c ∧ windowSum img ch r c ≤ 255 * windowSum img chOne r c := by
  rw [windowSum_unfold, windowSum_unfold]
  have h1 := cell_colour_bounds h img (r - 1) (c - 1)
  have h2 := cell_colour_bounds h img (r - 1) c
  have h3 := cell_colour_bounds h img (r - 1) (c + 1)
  have h4 := cell_colour_bounds h img r (c - 1)
  have h5 := cell_colour_bounds h img r c
  have h6 := cell_colour_bounds h img r (c + 1)
  have h7 := cell_colour_bounds h img (r + 1) (c - 1)
  have h8 := cell_colour_bounds h img (r + 1) c
  have h9 := cell_colour_bounds h img (r + 1) (c + 1)
  omega

/-- The quotient of a colour sum by the count lies in `[0, 255]`. -/
theorem quotient_bounds {ch : Vec3b → Int} (h : IsColour ch) {img : Mat} {r c : Int}
    (hb : img.inBounds r c) :
    Int.tdiv (windowSum img ch r c) (windowSum img chOne r c) =
        windowSum img ch r c / windowSum img chOne r c ∧
      0 ≤ windowSum img ch r c / windowSum img chOne r c ∧
      windowSum img ch r c / windowSum img chOne r c ≤ 255 := by
  have hpos := windowSum_chOne_pos hb
  obtain ⟨h0, h1⟩ := windowSum_colour_bounds h img r c
  refine ⟨Int.tdiv_eq_ediv h0 (by omega), Int.ediv_nonneg h0 (by omega), ?_⟩
  apply Int.ediv_le_of_le_mul (by omega)
  exact h1

theorem saturate_cast_of_range {q : Int} (h0 : 0 ≤ q) (h1 : q ≤ 255) :
    ((saturate_cast q).val : Int) = q := by
  unfold saturate_cast
  rw [if_neg (by omega), if_neg (by omega)]
  simp only [Fin.ofNat, Fin.val_mk]
  omega

theorem toUchar_of_range {q : Int} (h0 : 0 ≤ q) (h1 : q ≤ 255) : ((toUchar q).val : Int) = q := by
  unfold toUchar
  simp only [Fin.ofNat, Fin.val_mk]
  omega

/-- Each channel that the kernel stores is the quotient of the channel sum by the count. -/
theorem stored_channel_eq {ch : Vec3b → Int} (h : IsColour ch) {img : Mat} {r c : Int}
    (hb : img.inBounds r c) :
    ((toUchar ((saturate_cast (Int.tdiv (windowSum img ch r c) (windowSum img chOne r c))).val :
        Int)).val : Int) = windowSum img ch r c / windowSum img chOne r c := by
  obtain ⟨e, h0, h1⟩ := quotient_bounds h hb
  rw [e, saturate_cast_of_range h0 h1, toUchar_of_range h0 h1]

theorem avgPixel_channels {img : Mat} {r c : Int} (hb : img.inBounds r c) :
    chBlue (avgPixel img r c) = windowSum img chBlue r c / windowSum img chOne r c ∧
    chGreen (avgPixel img r c) = windowSum img chGreen r c / windowSum img chOne r c ∧
    chRed (avgPixel img r c) = windowSum img chRed r c / windowSum img chOne r c :=
  ⟨stored_channel_eq (Or.inl rfl) hb, stored_channel_eq (Or.inr (Or.inl rfl)) hb,
    stored_channel_eq (Or.inr (Or.inr rfl)) hb⟩

/-! ## Support for the uniform image and the neighbourhood size -/

theorem Mat.clone_eq (m : Mat) : m.clone = m := rfl

theorem pixel_mem_data {img : Mat} (hw : img.wf) {i j : Int} (hb : img.inBounds i j) :
    img.pixel i j ∈ img.data := by
  have hl := Mat.offset_lt hw hb
  have : img.pixel i j = img.data[img.offset i j] := by
    simp [Mat.pixel, Mat.atVec3b, hb, List.getElem?_eq_getElem hl]
  rw [this]
  exact List.getElem_mem _

theorem cell_uniform {img : Mat} (hw : img.wf) {v : Vec3b} (hu : ∀ p ∈ img.data, p = v)
    (ch : Vec3b → Int) (i j : Int) : cell img ch i j = ch v * cell img chOne i j := by
  unfold cell
  split
  · next hb => rw [hu _ (pixel_mem_data hw hb)]; simp [chOne]
  · simp

theorem windowSum_uniform {img : Mat} (hw : img.wf) {v : Vec3b} (hu : ∀ p ∈ img.data, p = v)
    (ch : Vec3b → Int) (r c : Int) : windowSum img ch r c = ch v * windowSum img chOne r c := by
  rw [windowSum_unfold, windowSum_unfold]
  simp only [cell_uniform hw hu ch]
  ring

theorem Vec3b.ext_channels {a b : Vec3b} (h0 : chBlue a = chBlue b) (h1 : chGreen a = chGreen b)
    (h2 : chRed a = chRed b) : a = b := by
  obtain ⟨a0, a1, a2⟩ := a
  obtain ⟨b0, b1, b2⟩ := b
  simp only [chBlue, chGreen, chRed] at h0 h1 h2
  have e0 : a0 = b0 := Fin.ext (by exact_mod_cast h0)
  have e1 : a1 = b1 := Fin.ext (by exact_mod_cast h1)
  have e2 : a2 = b2 := Fin.ext (by exact_mod_cast h2)
  rw [e0, e1, e2]

theorem avgPixel_uniform {img : Mat} (hw : img.wf) {v : Vec3b} (hu : ∀ p ∈ img.data, p = v)
    {r c : Int} (hb : img.inBounds r c) : avgPixel img r c = v := by
  obtain ⟨h0, h1, h2⟩ := avgPixel_channels hb
  have hpos := windowSum_chOne_pos hb
  have hne : windowSum img chOne r c ≠ 0 := by omega
  apply Vec3b.ext_channels
  · rw [h0, windowSum_uniform hw hu, Int.mul_ediv_cancel _ hne]
  · rw [h1, windowSum_uniform hw hu, Int.mul_ediv_cancel _ hne]
  · rw [h2, windowSum_uniform hw hu, Int.mul_ediv_cancel _ hne]

theorem blur_uniform {img : Mat} (hw : img.wf) {v : Vec3b} (hu : ∀ p ∈ img.data, p = v) :
    blur img = img := by
  apply Mat.ext_pixel (blur_wf img) hw rfl rfl
  intro i j hb
  have hb' : img.inBounds i j := hb
  rw [blur_pixel hb', avgPixel_uniform hw hu hb', hu _ (pixel_mem_data hw hb')]

theorem blur_iterate_uniform {img : Mat} (hw : img.wf) {v : Vec3b} (hu : ∀ p ∈ img.data, p = v)
    (k : Nat) : blur^[k] img = img := by
  induction k with
  | zero => rfl
  | succ n ih => rw [Function.iterate_succ_apply', ih, blur_uniform hw hu]

theorem cell_chOne_eq (img : Mat) (i j : Int) :
    cell img chOne i j = if img.inBounds i j then 1 else 0 := rfl

/-- The number of cells of the clipped window, as a product of the numbers of rows and of
columns that survive. -/
theorem windowCount_eq {img : Mat} {r c : Int} (hb : img.inBounds r c) :
    windowSum img chOne r c =
      ((if 0 < r then 1 else 0) + 1 + (if r + 1 < (img.rows : Int) then 1 else 0)) *
      ((if 0 < c then 1 else 0) + 1 + (if c + 1 < (img.cols : Int) then 1 else 0)) := by
  obtain ⟨h0, h1, h2, h3⟩ := hb
  have e1 : img.inBounds (r - 1) (c - 1) ↔ 0 < r ∧ 0 < c := by
    unfold Mat.inBounds; constructor <;> intro h <;> omega
  have e2 : img.inBounds (r - 1) c ↔ 0 < r := by
    unfold Mat.inBounds; constructor <;> intro h <;> omega
  have e3 : img.inBounds (r - 1) (c + 1) ↔ 0 < r ∧ c + 1 < (img.cols : Int) := by
    unfold Mat.inBounds; constructor <;> intro h <;> omega
  have e4 : img.inBounds r (c - 1) ↔ 0 < c := by
    unfold Mat.inBounds; constructor <;> intro h <;> omega
  have e5 : img.inBounds r c ↔ True := iff_true_intro ⟨h0, h1, h2, h3⟩
  have e6 : img.inBounds r (c + 1) ↔ c + 1 < (img.cols : Int) := by
    unfold Mat.inBounds; constructor <;> intro h <;> omega
  have e7 : img.inBounds (r + 1) (c - 1) ↔ r + 1 < (img.rows : Int) ∧ 0 < c := by
    unfold Mat.inBounds; constructor <;> intro h <;> omega
  have e8 : img.inBounds (r + 1) c ↔ r + 1 < (img.rows : Int) := by
    unfold Mat.inBounds; constructor <;> intro h <;> omega
  have e9 : img.inBounds (r + 1) (c + 1) ↔
      r + 1 < (img.rows : Int) ∧ c + 1 < (img.cols : Int) := by
    unfold Mat.inBounds; constructor <;> intro h <;> omega
  rw [windowSum_unfold]
  simp only [cell_chOne_eq, e1, e2, e3, e4, e5, e6, e7, e8, e9]
  by_cases a : 0 < r <;> by_cases b : r + 1 < (img.rows : Int) <;> by_cases p : 0 < c <;>
    by_cases q : c + 1 < (img.cols : Int) <;> simp [a, b, p, q]

/-! ## The claims -/

/-- C1: from the same well-formed grid, `k` passes of the sequential harness (the double
loop, then `image = averagedImage.clone()`) and `k` passes of the parallel harness
(`runParallel` with ten workers, then `IMAGE = RESULT_IMAGE.clone()`) both complete and
leave the same working grid, equal at every pixel and channel. -/
theorem C1_sequential_parallel_equivalence (g : Mat) (hw : g.wf) (k : Nat) :
    ∃ s p,
      SequentialTiming.passLoop { SequentialTiming.initial g with averageOps := (k : Int) }
        = some s ∧
      ParallelTiming.passLoop { ParallelTiming.initial g with averageOps := (k : Int) }
        = some p ∧
      s.image = p.g.IMAGE ∧
      ∀ i j : Int, s.image.atVec3b i j = p.g.IMAGE.atVec3b i j := by
  have hs : seqOk { SequentialTiming.initial g with averageOps := (k : Int) } :=
    ⟨hw, hw, rfl, rfl⟩
  have hp : parOk { ParallelTiming.initial g with averageOps := (k : Int) } :=
    ⟨hw, hw, rfl, rfl⟩
  refine ⟨_, _, seq_passLoop_eq hs, par_passLoop_eq hp, ?_, ?_⟩
  · rw [seqAfter_image, parAfter_image]; rfl
  · intro i j
    rw [seqAfter_image, parAfter_image]; rfl

/-- Witness for C1 on the 4x4 impulse grid and two passes. -/
theorem C1_sequential_parallel_equivalence_witness :
    impulse4.wf ∧ ∃ s p,
      SequentialTiming.passLoop { SequentialTiming.initial impulse4 with averageOps := ((2 : Nat) : Int) }
        = some s ∧
      ParallelTiming.passLoop { ParallelTiming.initial impulse4 with averageOps := ((2 : Nat) : Int) }
        = some p ∧
      s.image = p.g.IMAGE ∧
      ∀ i j : Int, s.image.atVec3b i j = p.g.IMAGE.atVec3b i j :=
  ⟨by decide, C1_sequential_parallel_equivalence impulse4 (by decide) 2⟩

/-- C2: at a valid `(r, c)` both kernels complete and store, in each of the three
channels, the truncating quotient of the sum of that channel over `S` by the number of
cells of `S`, where `S` is the set of cells of the 3x3 window that lie inside the grid. -/
theorem C2_kernel_is_clipped_average (img result : Mat) (hw : img.wf) (hwr : result.wf)
    (hr : result.rows = img.rows) (hc : result.cols = img.cols) (r c : Int)
    (hb : img.inBounds r c) :
    ∃ out v,
      neighborhoodAverage img result r c = some out ∧
      (∀ orig : Mat,
        ParallelTiming.neighborhoodAverage ⟨img, result, orig⟩ r c = some ⟨img, out, orig⟩) ∧
      out.atVec3b r c = some v ∧
      v.val0.val = (∑ p in Spec.neighbourhood img r c, (img.pixel p.1 p.2).val0.val) /
        (Spec.neighbourhood img r c).card ∧
      v.val1.val = (∑ p in Spec.neighbourhood img r c, (img.pixel p.1 p.2).val1.val) /
        (Spec.neighbourhood img r c).card ∧
      v.val2.val = (∑ p in Spec.neighbourhood img r c, (img.pixel p.1 p.2).val2.val) /
        (Spec.neighbourhood img r c).card := by
  have hbr : result.inBounds r c := by
    unfold Mat.inBounds at hb ⊢; rw [hr, hc]; exact hb
  have hk := neighborhoodAverage_eq_put hw hwr hb hbr
  have hat : (result.put r c (avgPixel img r c)).atVec3b r c = some (avgPixel img r c) := by
    rw [Mat.atVec3b_eq_pixel (Mat.put_wf hwr _ _ _) hbr, Mat.pixel_put_same hwr hbr]
  obtain ⟨h0, h1, h2⟩ := avgPixel_channels hb
  rw [windowSum_eq_sum, windowSum_chOne_eq_card] at h0 h1 h2
  refine ⟨_, _, hk, ?_, hat, ?_, ?_, ?_⟩
  · intro orig
    rw [parallel_neighborhoodAverage_eq]
    simp only [hk, Option.map_some']
  · simp only [chBlue] at h0; exact_mod_cast h0
  · simp only [chGreen] at h1; exact_mod_cast h1
  · simp only [chRed] at h2; exact_mod_cast h2

/-- Witness for C2 at the corner `(0, 0)` of the 4x4 impulse grid. -/
theorem C2_kernel_is_clipped_average_witness :
    impulse4.wf ∧ impulse4.inBounds 0 0 ∧ ∃ out v,
      neighborhoodAverage impulse4 impulse4 0 0 = some out ∧
      (∀ orig : Mat,
        ParallelTiming.neighborhoodAverage ⟨impulse4, impulse4, orig⟩ 0 0
          = some ⟨impulse4, out, orig⟩) ∧
      out.atVec3b 0 0 = some v ∧
      v.val0.val = (∑ p in Spec.neighbourhood impulse4 0 0, (impulse4.pixel p.1 p.2).val0.val) /
        (Spec.neighbourhood impulse4 0 0).card ∧
      v.val1.val = (∑ p in Spec.neighbourhood impulse4 0 0, (impulse4.pixel p.1 p.2).val1.val) /
        (Spec.neighbourhood impulse4 0 0).card ∧
      v.val2.val = (∑ p in Spec.neighbourhood impulse4 0 0, (impulse4.pixel p.1 p.2).val2.val) /
        (Spec.neighbourhood impulse4 0 0).card :=
  ⟨by decide, by decide,
    C2_kernel_is_clipped_average impulse4 impulse4 (by decide) (by decide) rfl rfl 0 0
      (by decide)⟩

/-- C3: for `rows >= 0` and `W >= 1` workers, the row ranges `[startRow, endRow)` of
`partition` for `tid = 0 .. W-1` are pairwise disjoint, their union is `[0, rows)`, every
range but the last has length `rows / W`, and the last has length `rows / W + rows % W`. -/
theorem C3_partition_ranges (rows W : Int) (hrows : 0 ≤ rows) (hW : 1 ≤ W) :
    (∀ t t' x : Int, 0 ≤ t → t < W → 0 ≤ t' → t' < W → t ≠ t' →
        (ParallelTiming.rowRange W rows t).1 ≤ x → x < (ParallelTiming.rowRange W rows t).2 →
        ¬ ((ParallelTiming.rowRange W rows t').1 ≤ x ∧
            x < (ParallelTiming.rowRange W rows t').2)) ∧
    (∀ x : Int, (0 ≤ x ∧ x < rows) ↔
        ∃ t, 0 ≤ t ∧ t < W ∧ (ParallelTiming.rowRange W rows t).1 ≤ x ∧
          x < (ParallelTiming.rowRange W rows t).2) ∧
    (∀ t : Int, 0 ≤ t → t < W - 1 →
        (ParallelTiming.rowRange W rows t).2 - (ParallelTiming.rowRange W rows t).1 = rows / W) ∧
    (ParallelTiming.rowRange W rows (W - 1)).2 - (ParallelTiming.rowRange W rows (W - 1)).1
        = rows / W + rows % W := by
  have hW' : 0 < W := by omega
  refine ⟨?_, ?_, ?_, ?_⟩
  · intro t t' x _ ht _ ht' hne h1 h2 ⟨h3, h4⟩
    rcases lt_or_gt_of_ne hne with hlt | hgt
    · have := rowRange_snd_le_fst hrows hW' hlt ht'
      omega
    · have := rowRange_snd_le_fst hrows hW' hgt ht
      omega
  · intro x
    constructor
    · rintro ⟨h0, h1⟩
      exact rowRange_cover hrows hW' h0 h1
    · rintro ⟨t, ht0, ht1, h1, h2⟩
      have a := rowRange_fst_nonneg hrows hW' ht0
      have b := rowRange_snd_le_rows hrows hW' ht1
      omega
  · intro t _ ht
    rw [rowRange_eq hrows hW']
    have hne : t ≠ W - 1 := by omega
    simp only [if_neg hne]
    ring
  · rw [rowRange_eq hrows hW']
    simp only [if_true]
    ring

/-- Witness for C3 with 37 rows and the ten workers of the program. -/
theorem C3_partition_ranges_witness :
    (0 : Int) ≤ 37 ∧ (1 : Int) ≤ 10 ∧
    (∀ t t' x : Int, 0 ≤ t → t < 10 → 0 ≤ t' → t' < 10 → t ≠ t' →
        (ParallelTiming.rowRange 10 37 t).1 ≤ x → x < (ParallelTiming.rowRange 10 37 t).2 →
        ¬ ((ParallelTiming.rowRange 10 37 t').1 ≤ x ∧
            x < (ParallelTiming.rowRange 10 37 t').2)) ∧
    (∀ x : Int, (0 ≤ x ∧ x < 37) ↔
        ∃ t, 0 ≤ t ∧ t < 10 ∧ (ParallelTiming.rowRange 10 37 t).1 ≤ x ∧
          x < (ParallelTiming.rowRange 10 37 t).2) ∧
    (∀ t : Int, 0 ≤ t → t < 10 - 1 →
        (ParallelTiming.rowRange 10 37 t).2 - (ParallelTiming.rowRange 10 37 t).1 = 37 / 10) ∧
    (ParallelTiming.rowRange 10 37 (10 - 1)).2 - (ParallelTiming.rowRange 10 37 (10 - 1)).1
        = 37 / 10 + 37 % 10 :=
  ⟨by decide, by decide, C3_partition_ranges 37 10 (by decide) (by decide)⟩

/-- C4: one averaging pass over a well-formed non-empty grid whose pixels all hold the same
triple `v` completes and returns the input grid; hence the pass loop leaves the working
grid unchanged for every number `k` of passes. -/
theorem C4_uniform_fixed_point (img : Mat) (v : Vec3b) (hw : img.wf) (hne : img.nonEmpty)
    (hu : ∀ p ∈ img.data, p = v) (k : Nat) :
    sweep img img.clone = some img ∧
    (∀ i j : Int, img.inBounds i j →
      (neighborhoodAverage img img.clone i j).bind (fun m => m.atVec3b i j) = some v) ∧
    ∃ s,
      SequentialTiming.passLoop { SequentialTiming.initial img with averageOps := (k : Int) }
        = some s ∧ s.image = img := by
  have _ := hne
  refine ⟨?_, ?_, ?_⟩
  · rw [Mat.clone_eq, sweep_eq_blur hw hw rfl rfl, blur_uniform hw hu]
  · intro i j hb
    rw [Mat.clone_eq, neighborhoodAverage_eq_put hw hw hb hb, Option.some_bind,
      Mat.atVec3b_eq_pixel (Mat.put_wf hw _ _ _) hb, Mat.pixel_put_same hw hb,
      avgPixel_uniform hw hu hb]
  · have hs : seqOk { SequentialTiming.initial img with averageOps := (k : Int) } :=
      ⟨hw, hw, rfl, rfl⟩
    refine ⟨_, seq_passLoop_eq hs, ?_⟩
    rw [seqAfter_image]
    exact blur_iterate_uniform hw hu _

/-- The 4x4 grid of all-zero pixels. -/
theorem zero4_facts : (⟨4, 4, List.replicate 16 black⟩ : Mat).wf ∧
    (⟨4, 4, List.replicate 16 black⟩ : Mat).nonEmpty ∧
    ∀ p ∈ (⟨4, 4, List.replicate 16 black⟩ : Mat).data, p = black :=
  ⟨by decide, by decide, by decide⟩

/-- Witness for C4: the 4x4 grid of all-zero pixels, three passes. -/
theorem C4_uniform_fixed_point_witness :
    (⟨4, 4, List.replicate 16 black⟩ : Mat).wf ∧
    (⟨4, 4, List.replicate 16 black⟩ : Mat).nonEmpty ∧
    (∀ p ∈ (⟨4, 4, List.replicate 16 black⟩ : Mat).data, p = black) ∧
    sweep ⟨4, 4, List.replicate 16 black⟩ (Mat.clone ⟨4, 4, List.replicate 16 black⟩)
      = some ⟨4, 4, List.replicate 16 black⟩ :=
  ⟨zero4_facts.1, zero4_facts.2.1, zero4_facts.2.2,
    (C4_uniform_fixed_point ⟨4, 4, List.replicate 16 black⟩ black zero4_facts.1 zero4_facts.2.1
      zero4_facts.2.2 3).1⟩

/-- C5: in a grid with at least 3 rows and 3 columns the kernel loops complete, and the
final value of `count` is 4 at a corner, 6 on the border away from the corners, and 9 at
an interior pixel. -/
theorem C5_neighbourhood_size (img : Mat) (hw : img.wf) (h3r : 3 ≤ img.rows)
    (h3c : 3 ≤ img.cols) (r c : Int) (hb : img.inBounds r c) :
    ∃ s, kernelSums img r c = some s ∧
      ((r = 0 ∨ r = (img.rows : Int) - 1) ∧ (c = 0 ∨ c = (img.cols : Int) - 1) →
        s.count = 4) ∧
      (((r = 0 ∨ r = (img.rows : Int) - 1) ∧ ¬ (c = 0 ∨ c = (img.cols : Int) - 1)) ∨
        (¬ (r = 0 ∨ r = (img.rows : Int) - 1) ∧ (c = 0 ∨ c = (img.cols : Int) - 1)) →
        s.count = 6) ∧
      (¬ (r = 0 ∨ r = (img.rows : Int) - 1) ∧ ¬ (c = 0 ∨ c = (img.cols : Int) - 1) →
        s.count = 9) := by
  refine ⟨_, kernelSums_eq hw r c, ?_, ?_, ?_⟩
  all_goals
    simp only [windowCount_eq hb]
    obtain ⟨h0, h1, h2, h3⟩ := hb
    have h3r' : (3 : Int) ≤ (img.rows : Int) := by exact_mod_cast h3r
    have h3c' : (3 : Int) ≤ (img.cols : Int) := by exact_mod_cast h3c
    intro h
    by_cases a : 0 < r <;> by_cases b : r + 1 < (img.rows : Int) <;> by_cases p : 0 < c <;>
      by_cases q : c + 1 < (img.cols : Int) <;> simp only [a, b, p, q, if_true, if_false] <;>
      omega

/-- Witness for C5 at the corner `(0, 0)` of the 4x4 impulse grid. -/
theorem C5_neighbourhood_size_witness :
    impulse4.wf ∧ 3 ≤ impulse4.rows ∧ 3 ≤ impulse4.cols ∧ impulse4.inBounds 0 0 ∧
    ∃ s, kernelSums impulse4 0 0 = some s ∧
      (((0 : Int) = 0 ∨ (0 : Int) = (impulse4.rows : Int) - 1) ∧
        ((0 : Int) = 0 ∨ (0 : Int) = (impulse4.cols : Int) - 1) → s.count = 4) ∧
      ((((0 : Int) = 0 ∨ (0 : Int) = (impulse4.rows : Int) - 1) ∧
          ¬ ((0 : Int) = 0 ∨ (0 : Int) = (impulse4.cols : Int) - 1)) ∨
        (¬ ((0 : Int) = 0 ∨ (0 : Int) = (impulse4.rows : Int) - 1) ∧
          ((0 : Int) = 0 ∨ (0 : Int) = (impulse4.cols : Int) - 1)) → s.count = 6) ∧
      (¬ ((0 : Int) = 0 ∨ (0 : Int) = (impulse4.rows : Int) - 1) ∧
        ¬ ((0 : Int) = 0 ∨ (0 : Int) = (impulse4.cols : Int) - 1) → s.count = 9) :=
  ⟨by decide, by decide, by decide, by decide,
    C5_neighbourhood_size impulse4 (by decide) (by decide) (by decide) 0 0 (by decide)⟩

/-- C6: one parallel pass with ten workers over the 4x4 grid whose pixel `(0,0)` is
`(255,255,255)` and whose other pixels are `(0,0,0)` completes, and pixel `(0,0)` of the
output grid is `(63,63,63)`. -/
theorem C6_impulse_corner :
    ∃ g, ParallelTiming.runParallel ⟨impulse4, impulse4.clone, impulse4.clone⟩ = some g ∧
      g.RESULT_IMAGE.atVec3b 0 0 = some ⟨63, 63, 63⟩ ∧
      (ParallelTiming.passBody (ParallelTiming.initial impulse4)).bind
        (fun s => s.g.IMAGE.atVec3b 0 0) = some ⟨63, 63, 63⟩ := by
  have hw : impulse4.wf := by decide
  have h : ParallelTiming.runParallel ⟨impulse4, impulse4.clone, impulse4.clone⟩ =
      some ⟨impulse4, blur impulse4, impulse4.clone⟩ := runParallel_eq_blur hw hw rfl rfl
  have hpix : (blur impulse4).atVec3b 0 0 = some ⟨63, 63, 63⟩ := by decide
  have hp : ParallelTiming.passBody (ParallelTiming.initial impulse4) =
      some (parAfter 1 (ParallelTiming.initial impulse4)) :=
    par_passBody_eq ⟨hw, hw, rfl, rfl⟩
  refine ⟨_, h, hpix, ?_⟩
  rw [hp]
  exact hpix

/-- C7: one sequential pass over a well-formed grid, whatever the output buffer of the same
dimensions holds, completes with an output grid of the dimensions of the input in which
every pixel is the value the kernel computes from the input grid as it was before the
pass, whatever the output buffer it is given holds; the pass body then makes this grid
the working grid. -/
theorem C7_pass_reads_only_input (image averagedImage : Mat) (hw : image.wf)
    (hwa : averagedImage.wf) (hr : averagedImage.rows = image.rows)
    (hc : averagedImage.cols = image.cols) :
    ∃ out, sweep image averagedImage = some out ∧
      out.rows = image.rows ∧ out.cols = image.cols ∧ out.wf ∧
      (∀ r c : Int, image.inBounds r c →
        ∀ res : Mat, res.wf → res.rows = image.rows → res.cols = image.cols →
          ∃ m, neighborhoodAverage image res r c = some m ∧
            out.atVec3b r c = m.atVec3b r c) ∧
      (∀ s : SequentialTiming.State, s.image = image → s.averagedImage = averagedImage →
        SequentialTiming.passBody s = some { s with image := out, averagedImage := out }) := by
  refine ⟨blur image, sweep_eq_blur hw hwa hr hc, rfl, rfl, blur_wf image, ?_, ?_⟩
  · intro r c hb res hwres hrr hrc
    have hbr : res.inBounds r c := by
      unfold Mat.inBounds at hb ⊢; rw [hrr, hrc]; exact hb
    refine ⟨_, neighborhoodAverage_eq_put hw hwres hb hbr, ?_⟩
    rw [Mat.atVec3b_eq_pixel (blur_wf image) hb, blur_pixel hb,
      Mat.atVec3b_eq_pixel (Mat.put_wf hwres _ _ _) hbr, Mat.pixel_put_same hwres hbr]
  · intro s h1 h2
    subst h1 h2
    rw [seq_passBody_eq ⟨hw, hwa, hr, hc⟩]
    simp [seqAfter]

/-- Witness for C7: the 4x4 impulse grid with a black output buffer. -/
theorem C7_pass_reads_only_input_witness :
    impulse4.wf ∧ (⟨4, 4, List.replicate 16 black⟩ : Mat).wf ∧
    ∃ out, sweep impulse4 ⟨4, 4, List.replicate 16 black⟩ = some out ∧
      out.rows = impulse4.rows ∧ out.cols = impulse4.cols ∧ out.wf :=
  ⟨by decide, by decide,
    (C7_pass_reads_only_input impulse4 ⟨4, 4, List.replicate 16 black⟩ (by decide) (by decide)
      rfl rfl).imp (fun _ h => ⟨h.1, h.2.1, h.2.2.1, h.2.2.2.1⟩)⟩

/-! ## The doubling loop past the overflow of the counter -/

theorem seq_scaleBody_eq {s : SequentialTiming.State} (h : seqOk s) (e : Nat → ℚ) :
    SequentialTiming.scaleBody e s =
      some (SequentialTiming.report e (seqAfter s.averageOps.toNat s)) := by
  unfold SequentialTiming.scaleBody
  rw [seq_passLoop_eq h]
  rfl

theorem seqAfter_fields (k : Nat) (s : SequentialTiming.State) :
    (seqAfter k s).original = s.original ∧ (seqAfter k s).averageOps = s.averageOps := by
  unfold seqAfter; split <;> exact ⟨rfl, rfl⟩

theorem wrap32_double_cases {a : Int}
    (h : (∃ m : Nat, m ≤ 30 ∧ a = 2 ^ m) ∨ a = -2147483648 ∨ a = 0) :
    (∃ m : Nat, m ≤ 30 ∧ wrap32 (a * 2) = 2 ^ m) ∨ wrap32 (a * 2) = -2147483648 ∨
      wrap32 (a * 2) = 0 := by
  rcases h with ⟨m, hm, rfl⟩ | rfl | rfl
  · rcases Nat.lt_or_ge m 30 with hlt | hge
    · left
      refine ⟨m + 1, by omega, ?_⟩
      rw [← pow_succ]
      have h1 := two_pow_le_of_le (show m + 1 ≤ 30 by omega)
      have h2 := two_pow_pos_int (m + 1)
      exact wrap32_of_range (by omega) (by omega)
    · have : m = 30 := by omega
      subst this
      right; left
      decide
  · right; right; decide
  · right; right; decide

theorem seqCycle_step (e : Nat → ℚ) {s : SequentialTiming.State} (h : seqCycle s) :
    s.averageOps ≤ 1073741824 ∧
      ∃ s', SequentialTiming.scaleBody e s = some s' ∧ seqCycle s' := by
  obtain ⟨hok, how, hor, hoc, hops⟩ := h
  constructor
  · rcases hops with ⟨m, hm, hq⟩ | hq | hq
    · rw [hq]; exact two_pow_le_of_le hm
    · omega
    · omega
  · refine ⟨_, seq_scaleBody_eq hok e, ?_⟩
    have hafter := seqOk_after hok s.averageOps.toNat
    obtain ⟨f1, f2⟩ := seqAfter_fields s.averageOps.toNat s
    have himg := seqAfter_image s.averageOps.toNat s
    have hd := blur_iterate_dims s.image s.averageOps.toNat
    obtain ⟨a1, a2, a3, a4⟩ := hafter
    rw [himg] at a3 a4
    refine ⟨⟨?_, ?_, ?_, ?_⟩, ?_, ?_, ?_, ?_⟩
    · simpa [SequentialTiming.report, Mat.clone_eq, f1] using how
    · simpa [SequentialTiming.report] using a2
    · simp only [SequentialTiming.report, Mat.clone_eq, f1]
      rw [a3, hd.1, hor]
    · simp only [SequentialTiming.report, Mat.clone_eq, f1]
      rw [a4, hd.2, hoc]
    · simpa [SequentialTiming.report, f1] using how
    · simp [SequentialTiming.report, Mat.clone_eq, f1]
    · simp [SequentialTiming.report, Mat.clone_eq, f1]
    · simp only [SequentialTiming.report, f2]
      exact wrap32_double_cases hops

/-- A loop whose guard and body preserve an invariant, with the body never failing, is
still running after any number of iterations. -/
theorem whileLoop_running_of_invariant {σ : Type} {guard : σ → Bool} {body : σ → Option σ}
    (I : σ → Prop) (hI : ∀ s, I s → guard s = true ∧ ∃ s', body s = some s' ∧ I s')
    {s : σ} (hs : I s) (fuel : Nat) :
    ∃ s', whileLoop guard body fuel s = .running s' ∧ I s' := by
  induction fuel with
  | zero => exact ⟨s, by simp [whileLoop, (hI s hs).1], hs⟩
  | succ k ih =>
    obtain ⟨s1, h1, i1⟩ := ih
    obtain ⟨-, s2, h2, i2⟩ := hI s1 i1
    refine ⟨s2, ?_, i2⟩
    rw [whileLoop_succ_of_running h1 h2, if_pos (hI s2 i2).1]

theorem seq_never_finishes (e : Nat → ℚ) {g : Mat} (hw : g.wf) (fuel : Nat) :
    ∃ s, SequentialTiming.doublingLoop e 1073741824 fuel (SequentialTiming.initial g)
      = .running s := by
  have hinit : seqCycle (SequentialTiming.initial g) :=
    ⟨⟨hw, hw, rfl, rfl⟩, hw, rfl, rfl, Or.inl ⟨0, by omega, rfl⟩⟩
  obtain ⟨s, h, -⟩ := @whileLoop_running_of_invariant SequentialTiming.State
    (fun st => decide (st.averageOps ≤ 1073741824)) (SequentialTiming.scaleBody e) seqCycle
    (fun s hs => ⟨by simpa using (seqCycle_step e hs).1, (seqCycle_step e hs).2⟩) _ hinit fuel
  exact ⟨s, h⟩

theorem exists_log_int {n : Int} (h1 : 1 ≤ n) (h2 : n < 1073741824) :
    ∃ m : Nat, m < 30 ∧ (2 : Int) ^ m ≤ n ∧ n < 2 ^ (m + 1) := by
  lift n to ℕ using (by omega)
  have hn : n ≠ 0 := by omega
  refine ⟨Nat.log 2 n, ?_, ?_, ?_⟩
  · have h3 : n < 2 ^ 30 := by norm_num; exact_mod_cast h2
    exact Nat.log_lt_of_lt_pow hn h3
  · exact_mod_cast Nat.pow_log_le_self 2 hn
  · exact_mod_cast Nat.lt_pow_succ_log_self (by norm_num) n

theorem lines_averageOps (e : Nat → ℚ) (m : Nat) :
    ((List.range m).map (lineOf e)).map (fun l => l.averageOps) =
      (List.range m).map (fun i => (2 : Int) ^ i) := by
  rw [List.map_map]
  rfl

/-- C8 fails for a bound at or above `2^30`: with `n = 2^30` the counter reaches `2^30`,
doubles to `2^31`, wraps to `-2^31` and then to `0`, and the guard `averageOps <= n`
holds forever, so the doubling loop of the sequential harness never finishes. -/
theorem C8_counterexample :
    ¬ ∃ (fuel : Nat) (s : SequentialTiming.State),
        SequentialTiming.doublingLoop (fun _ => 1) 1073741824 fuel
          (SequentialTiming.initial impulse4) = Outcome.finished s := by
  rintro ⟨fuel, s, h⟩
  obtain ⟨s', h'⟩ := seq_never_finishes (fun _ => 1) (show impulse4.wf by decide) fuel
  rw [h'] at h
  cases h

/-- C8, amended: for every bound `n` with `1 <= n < 2^30` the doubling loop of either
timing harness finishes, after exactly `m + 1` scales whose pass counts are
`1, 2, 4, ..., 2^m`, where `2^m` is the largest power of two not exceeding `n`. -/
theorem C8_doubling_schedule (e : Nat → ℚ) (g : Mat) (hw : g.wf) (n : Int) (h1 : 1 ≤ n)
    (h2 : n < 1073741824) :
    ∃ m : Nat, (2 : Int) ^ m ≤ n ∧ n < 2 ^ (m + 1) ∧
      (∃ fuel s, SequentialTiming.doublingLoop e n fuel (SequentialTiming.initial g)
          = Outcome.finished s ∧ s.scale = m + 1 ∧
        s.out.map (fun l => l.averageOps) = (List.range (m + 1)).map (fun i => (2 : Int) ^ i)) ∧
      (∃ fuel s, ParallelTiming.doublingLoop e n fuel (ParallelTiming.initial g)
          = Outcome.finished s ∧ s.scale = m + 1 ∧
        s.out.map (fun l => l.averageOps) = (List.range (m + 1)).map (fun i => (2 : Int) ^ i)) := by
  obtain ⟨m, hm, hle, hlt⟩ := exists_log_int h1 h2
  have hprev : ∀ i, i < m + 1 → (2 : Int) ^ i ≤ n := fun i hi =>
    le_trans (two_pow_mono_int (show i ≤ m by omega)) hle
  refine ⟨m, hle, hlt, ⟨m + 1, seqHead e g (m + 1), ?_, rfl, lines_averageOps e (m + 1)⟩,
    ⟨m + 1, parHead e g (m + 1), ?_, rfl, lines_averageOps e (m + 1)⟩⟩
  · rw [seq_loop_head hw e n (show m + 1 ≤ 30 by omega) hprev, if_neg (by omega)]
  · rw [par_loop_head hw e n (show m + 1 ≤ 30 by omega) hprev, if_neg (by omega)]

/-- Witness for C8 (amended): the bound 5 on the 4x4 impulse grid. -/
theorem C8_doubling_schedule_witness :
    impulse4.wf ∧ (1 : Int) ≤ 5 ∧ (5 : Int) < 1073741824 ∧
    ∃ m : Nat, (2 : Int) ^ m ≤ 5 ∧ (5 : Int) < 2 ^ (m + 1) ∧
      (∃ fuel s, SequentialTiming.doublingLoop (fun _ => 1) 5 fuel (SequentialTiming.initial impulse4)
          = Outcome.finished s ∧ s.scale = m + 1 ∧
        s.out.map (fun l => l.averageOps) = (List.range (m + 1)).map (fun i => (2 : Int) ^ i)) ∧
      (∃ fuel s, ParallelTiming.doublingLoop (fun _ => 1) 5 fuel (ParallelTiming.initial impulse4)
          = Outcome.finished s ∧ s.scale = m + 1 ∧
        s.out.map (fun l => l.averageOps) = (List.range (m + 1)).map (fun i => (2 : Int) ^ i)) :=
  ⟨by decide, by decide, by decide,
    C8_doubling_schedule (fun _ => 1) impulse4 (by decide) 5 (by decide) (by decide)⟩

/-- C9: in both timing harnesses, for every bound `n` that fits an `int` and every scale
with pass count `2^m <= n`, the loop reaches the head of that scale with the working grid
equal to the original grid, although the output buffer still holds what the previous scale
left in it, and the pass loop of that scale completes with the working grid equal to the
original grid with the averaging pass applied exactly `2^m` times. -/
theorem C9_scale_restarts_from_original (e : Nat → ℚ) (g : Mat) (hw : g.wf) (n : Int)
    (m : Nat) (hm : (2 : Int) ^ m ≤ n) (hn : n ≤ 2147483647) :
    (∃ s, SequentialTiming.doublingLoop e n m (SequentialTiming.initial g) = Outcome.running s ∧
      s.averageOps = 2 ^ m ∧ s.image = g ∧ s.original = g ∧
      (0 < m → s.averagedImage = blur^[2 ^ (m - 1)] g) ∧
      ∃ s', SequentialTiming.passLoop s = some s' ∧ s'.image = blur^[2 ^ m] g) ∧
    (∃ s, ParallelTiming.doublingLoop e n m (ParallelTiming.initial g) = Outcome.running s ∧
      s.averageOps = 2 ^ m ∧ s.g.IMAGE = g ∧ s.g.ORIGINAL = g ∧
      (0 < m → s.g.RESULT_IMAGE = blur^[2 ^ (m - 1)] g) ∧
      ∃ s', ParallelTiming.passLoop s = some s' ∧ s'.g.IMAGE = blur^[2 ^ m] g) := by
  have hm30 : m ≤ 30 := by
    by_contra hcon
    have : (2 : Int) ^ 31 ≤ 2 ^ m := two_pow_mono_int (by omega)
    norm_num at this
    omega
  have hprev : ∀ i, i < m → (2 : Int) ^ i ≤ n := fun i hi =>
    le_trans (two_pow_mono_int (show i ≤ m by omega)) hm
  constructor
  · refine ⟨seqHead e g m, ?_, rfl, rfl, rfl, ?_, ?_⟩
    · rw [seq_loop_head hw e n hm30 hprev, if_pos hm]
    · intro h0
      simp [seqHead, Nat.pos_iff_ne_zero.1 h0]
    · refine ⟨_, seq_passLoop_eq (seqHead_ok hw e m), ?_⟩
      rw [seqAfter_image]
      have : (seqHead e g m).averageOps.toNat = 2 ^ m := toNat_two_pow m
      rw [this]
      rfl
  · refine ⟨parHead e g m, ?_, rfl, rfl, rfl, ?_, ?_⟩
    · rw [par_loop_head hw e n hm30 hprev, if_pos hm]
    · intro h0
      simp [parHead, Nat.pos_iff_ne_zero.1 h0]
    · refine ⟨_, par_passLoop_eq (parHead_ok hw e m), ?_⟩
      rw [parAfter_image]
      have : (parHead e g m).averageOps.toNat = 2 ^ m := toNat_two_pow m
      rw [this]
      rfl

/-- Witness for C9: the third scale (pass count 4) under the bound 5 on the impulse grid. -/
theorem C9_scale_restarts_from_original_witness :
    impulse4.wf ∧ (2 : Int) ^ 2 ≤ 5 ∧ (5 : Int) ≤ 2147483647 ∧
    ∃ s, SequentialTiming.doublingLoop (fun _ => 1) 5 2 (SequentialTiming.initial impulse4)
        = Outcome.running s ∧
      s.averageOps = 2 ^ 2 ∧ s.image = impulse4 ∧ s.original = impulse4 ∧
      (0 < 2 → s.averagedImage = blur^[2 ^ (2 - 1)] impulse4) ∧
      ∃ s', SequentialTiming.passLoop s = some s' ∧ s'.image = blur^[2 ^ 2] impulse4 :=
  ⟨by decide, by decide, by decide,
    (C9_scale_restarts_from_original (fun _ => 1) impulse4 (by decide) 5 2 (by decide)
      (by decide)).1⟩

/-- C10, the code at the failing input `n = 1`: in both harnesses the only line printed is
the one of the first scale, and the ratio it carries is `curr_elapsed_secs` divided by the
zero-initialised `prev_elapsed_secs`. -/
theorem C10_first_line_divides_by_zero :
    (∃ s, SequentialTiming.doublingLoop (fun _ => 1) 1 1 (SequentialTiming.initial impulse4)
        = Outcome.finished s ∧
      s.out = [{ averageOps := 1, ratioNum := 1, ratioDen := 0, total := 0 }]) ∧
    (∃ s, ParallelTiming.doublingLoop (fun _ => 1) 1 1 (ParallelTiming.initial impulse4)
        = Outcome.finished s ∧
      s.out = [{ averageOps := 1, ratioNum := 1, ratioDen := 0, total := 0 }]) := by
  have hw : impulse4.wf := by decide
  have hprev : ∀ i, i < 1 → (2 : Int) ^ i ≤ 1 := fun i hi => by
    have : i = 0 := by omega
    subst this; norm_num
  constructor
  · refine ⟨seqHead (fun _ => 1) impulse4 1, ?_, ?_⟩
    · rw [seq_loop_head hw _ 1 (by omega) hprev, if_neg (by norm_num)]
    · simp [seqHead, lineOf, List.range_succ]
  · refine ⟨parHead (fun _ => 1) impulse4 1, ?_, ?_⟩
    · rw [par_loop_head hw _ 1 (by omega) hprev, if_neg (by norm_num)]
    · simp [parHead, lineOf, List.range_succ]

/-! ## The smoothing program -/

theorem checkpointsUpTo_succ (g : Mat) (p : Nat) :
    checkpointsUpTo g (p + 1) = checkpointsUpTo g p ++
      (if (p + 1) % 25 = 0 then [Written.checkpoint ((p + 1 : Nat) : Int) (blur^[p + 1] g)]
        else []) := by
  unfold checkpointsUpTo
  rw [List.range_succ, List.filterMap_append]
  by_cases h : (p + 1) % 25 = 0 <;> simp [h]

theorem mem_checkpointsUpTo {g : Mat} {n : Nat} {w : Written} :
    w ∈ checkpointsUpTo g n ↔
      ∃ p : Nat, 1 ≤ p ∧ p ≤ n ∧ p % 25 = 0 ∧ w = Written.checkpoint (p : Int) (blur^[p] g) := by
  unfold checkpointsUpTo
  simp only [List.mem_filterMap, List.mem_range]
  constructor
  · rintro ⟨i, hi, h⟩
    split at h
    · next h25 =>
      refine ⟨i + 1, by omega, by omega, h25, ?_⟩
      exact (Option.some.inj h).symm
    · cases h
  · rintro ⟨p, h1, h2, h3, rfl⟩
    refine ⟨p - 1, by omega, ?_⟩
    have : p - 1 + 1 = p := by omega
    rw [this, if_pos h3]

theorem tmod_natCast (a b : Nat) : Int.tmod (a : Int) (b : Int) = ((a % b : Nat) : Int) := by
  rw [Int.tmod_eq_emod (by positivity) (by positivity)]
  norm_cast

theorem smooth_passBody_head {g : Mat} (hw : g.wf) {p : Nat} (hp : (p : Int) < 2147483647) :
    sequentialAverage.passBody (smoothHead g p) = some (smoothHead g (p + 1)) := by
  have hwp := blur_iterate_wf hw p
  have hwrap : wrap32 ((p : Int) + 1) = (p : Int) + 1 := by
    have h1 : -2147483648 ≤ (p : Int) + 1 := by omega
    have h2 : (p : Int) + 1 < 2147483648 := by omega
    exact wrap32_of_range h1 h2
  have hmod : Int.tmod ((p : Int) + 1) 25 = 0 ↔ (p + 1) % 25 = 0 := by
    have := tmod_natCast (p + 1) 25
    simp only [Nat.cast_ofNat, Nat.cast_add, Nat.cast_one] at this
    rw [this]
    constructor <;> intro h <;> omega
  unfold sequentialAverage.passBody
  simp only [smoothHead, sweep_eq_blur hwp hwp rfl rfl, bind, Option.some_bind, hwrap, Mat.clone_eq,
    Option.some.injEq, checkpointsUpTo_succ, Function.iterate_succ_apply', Nat.cast_add,
    Nat.cast_one]
  by_cases h : (p + 1) % 25 = 0
  · simp [h, hmod.2 h]
  · have h' : ¬ Int.tmod ((p : Int) + 1) 25 = 0 := fun hh => h (hmod.1 hh)
    simp [h, h']

theorem smooth_initial_eq_head (g : Mat) : sequentialAverage.initial g = smoothHead g 0 := by
  simp [sequentialAverage.initial, smoothHead, checkpointsUpTo, Mat.clone_eq]

/-- After `p` passes the loop of the smoothing program is at its head with the grid averaged
`p` times, as long as `p` does not exceed the requested number of passes. -/
theorem smooth_loop_head {g : Mat} (hw : g.wf) (n : Int) (hn : n ≤ 2147483647) {p : Nat}
    (hp : (p : Int) ≤ n) :
    whileLoop (fun st : sequentialAverage.State => decide (st.averageOps < n))
        sequentialAverage.passBody p (sequentialAverage.initial g) =
      if (p : Int) < n then Outcome.running (smoothHead g p) else Outcome.finished (smoothHead g p) := by
  induction p with
  | zero =>
    rw [whileLoop_zero, smooth_initial_eq_head]
    simp [smoothHead]
  | succ k ih =>
    have hk : (k : Int) < n := by push_cast at hp; omega
    have h1 := ih (by omega)
    rw [if_pos hk] at h1
    rw [whileLoop_succ_of_running h1 (smooth_passBody_head hw (by omega))]
    simp [smoothHead]

/-- The smoothing program, given four arguments, a pass count in `[0, INT_MAX]` and a
readable image, returns 0 after `n` passes and has written the periodic images and then the
output image. -/
theorem smooth_main_eq {g : Mat} (hw : g.wf) {n : Int} (h0 : 0 ≤ n) (hn : n ≤ 2147483647) :
    sequentialAverage.main 4 n (some g) n.toNat =
      Outcome.finished (Exit.completed 0
        { image := blur^[n.toNat] g
          averagedImage := blur^[n.toNat] g
          averageOps := wrap32 (n + 1)
          files := checkpointsUpTo g n.toNat ++ [Written.output (blur^[n.toNat] g)] }) := by
  have hcast : ((n.toNat : Nat) : Int) = n := Int.toNat_of_nonneg h0
  have hloop := smooth_loop_head hw n hn (p := n.toNat) (by omega)
  rw [if_neg (by omega)] at hloop
  unfold sequentialAverage.main sequentialAverage.passLoop
  rw [if_neg (by omega), if_neg (by omega), if_neg (by omega)]
  simp only [hloop, sequentialAverage.leave, smoothHead, hcast]

theorem timing_refuses_nonpositive (e : Nat → ℚ) {argc n : Int} (hargc : 3 ≤ argc) (hn : n ≤ 0)
    (image : Option Mat) (fuel : Nat) :
    SequentialTiming.main e argc n image fuel = Outcome.finished (Exit.refused (-1)) ∧
    ParallelTiming.main e argc n image fuel = Outcome.finished (Exit.refused (-1)) := by
  have h1 : ¬ argc < 3 := by omega
  have h2 : n < 1 := by omega
  unfold SequentialTiming.main ParallelTiming.main
  simp only [h1, h2, if_false, if_true, ite_self, and_self]

theorem smooth_refuses_negative {argc n : Int} (hargc : 3 ≤ argc) (hn : n < 0)
    (image : Option Mat) (fuel : Nat) :
    sequentialAverage.main argc n image fuel = Outcome.finished (Exit.refused (-1)) := by
  have h1 : ¬ argc < 3 := by omega
  unfold sequentialAverage.main
  simp only [h1, hn, if_false, if_true, ite_self]

/-- C11, the code at the failing input `n = 2` with elapsed times `e_1 = 1`, `e_2 = 2`: in
both harnesses the totals printed in the two records are `0` and `1`, the sums of the
elapsed times of the scales before the current one, not `1` and `3`. -/
theorem C11_total_excludes_current_scale :
    (∃ s, SequentialTiming.doublingLoop (fun k => (k : ℚ) + 1) 2 2
        (SequentialTiming.initial impulse4) = Outcome.finished s ∧
      s.out.map (fun l => l.ratioNum) = [1, 2] ∧ s.out.map (fun l => l.total) = [0, 1]) ∧
    (∃ s, ParallelTiming.doublingLoop (fun k => (k : ℚ) + 1) 2 2
        (ParallelTiming.initial impulse4) = Outcome.finished s ∧
      s.out.map (fun l => l.ratioNum) = [1, 2] ∧ s.out.map (fun l => l.total) = [0, 1]) := by
  have hw : impulse4.wf := by decide
  have hprev : ∀ i, i < 2 → (2 : Int) ^ i ≤ 2 := fun i hi => by
    interval_cases i <;> norm_num
  constructor
  · refine ⟨seqHead (fun k => (k : ℚ) + 1) impulse4 2, ?_, ?_, ?_⟩
    · rw [seq_loop_head hw _ 2 (by omega) hprev, if_neg (by norm_num)]
    · simp [seqHead, lineOf, List.range_succ]
      norm_num
    · simp [seqHead, lineOf, List.range_succ, Finset.sum_range_succ]
  · refine ⟨parHead (fun k => (k : ℚ) + 1) impulse4 2, ?_, ?_, ?_⟩
    · rw [par_loop_head hw _ 2 (by omega) hprev, if_neg (by norm_num)]
    · simp [parHead, lineOf, List.range_succ]
      norm_num
    · simp [parHead, lineOf, List.range_succ, Finset.sum_range_succ]

/-- C12: given four arguments, a readable well-formed image and a pass count `n` with
`0 <= n <= INT_MAX`, the smoothing program returns 0 and the grid it finally writes is the
input grid with the averaging pass applied exactly `n` times; for `n = 0` it is the input
grid. -/
theorem C12_smoothing_output (g : Mat) (hw : g.wf) (n : Int) (h0 : 0 ≤ n)
    (hn : n ≤ 2147483647) :
    ∃ fuel s, sequentialAverage.main 4 n (some g) fuel = Outcome.finished (Exit.completed 0 s) ∧
      s.files.getLast? = some (Written.output (blur^[n.toNat] g)) ∧
      (∀ grid, Written.output grid ∈ s.files → grid = blur^[n.toNat] g) ∧
      (n = 0 → s.files = [Written.output g]) := by
  refine ⟨n.toNat, _, smooth_main_eq hw h0 hn, ?_, ?_, ?_⟩
  · simp
  · intro grid hmem
    simp only [List.mem_append, List.mem_singleton, Written.output.injEq] at hmem
    rcases hmem with h | h
    · obtain ⟨p, -, -, -, hp⟩ := mem_checkpointsUpTo.1 h
      cases hp
    · exact h
  · intro hz
    subst hz
    simp [checkpointsUpTo]

/-- Witness for C12: 26 passes over the 4x4 impulse grid. -/
theorem C12_smoothing_output_witness :
    impulse4.wf ∧ (0 : Int) ≤ 26 ∧ (26 : Int) ≤ 2147483647 ∧
    ∃ fuel s, sequentialAverage.main 4 26 (some impulse4) fuel
        = Outcome.finished (Exit.completed 0 s) ∧
      s.files.getLast? = some (Written.output (blur^[(26 : Int).toNat] impulse4)) ∧
      (∀ grid, Written.output grid ∈ s.files → grid = blur^[(26 : Int).toNat] impulse4) ∧
      ((26 : Int) = 0 → s.files = [Written.output impulse4]) :=
  ⟨by decide, by decide, by decide,
    C12_smoothing_output impulse4 (by decide) 26 (by decide) (by decide)⟩

/-- C13, the code at the failing input `n = 0`: the smoothing program, given four arguments
and a readable image, performs no pass, writes the input grid as its output image and
returns 0. -/
theorem C13_smoothing_accepts_zero :
    sequentialAverage.main 4 0 (some impulse4) 0 =
      Outcome.finished (Exit.completed 0
        { image := impulse4, averagedImage := impulse4, averageOps := 1
          files := [Written.output impulse4] }) := by
  decide

/-- C19: given four arguments, a readable well-formed image and a pass count `n` with
`0 <= n <= INT_MAX`, the periodic images the smoothing program has written when it returns
are exactly those numbered `p` with `1 <= p <= n` and `p mod 25 = 0`, in increasing order,
and the image numbered `p` is the input grid with the averaging pass applied exactly `p`
times. -/
theorem C19_checkpoints (g : Mat) (hw : g.wf) (n : Int) (h0 : 0 ≤ n) (hn : n ≤ 2147483647) :
    ∃ fuel s, sequentialAverage.main 4 n (some g) fuel = Outcome.finished (Exit.completed 0 s) ∧
      (∀ (p : Int) (grid : Mat), Written.checkpoint p grid ∈ s.files ↔
        1 ≤ p ∧ p ≤ n ∧ p % 25 = 0 ∧ grid = blur^[p.toNat] g) ∧
      s.files = checkpointsUpTo g n.toNat ++ [Written.output (blur^[n.toNat] g)] ∧
      (∀ k : Nat, (k : Int) ≤ n →
        ∃ st, whileLoop (fun st : sequentialAverage.State => decide (st.averageOps < n))
            sequentialAverage.passBody k (sequentialAverage.initial g)
            = (if (k : Int) < n then Outcome.running st else Outcome.finished st) ∧
          st.files = checkpointsUpTo g k) := by
  refine ⟨n.toNat, _, smooth_main_eq hw h0 hn, ?_, rfl, ?_⟩
  · intro p grid
    simp only [List.mem_append, List.mem_singleton, mem_checkpointsUpTo, reduceCtorEq, or_false,
      Written.checkpoint.injEq]
    constructor
    · rintro ⟨q, h1, h2, h3, rfl, rfl⟩
      refine ⟨by omega, by omega, by omega, ?_⟩
      rw [Int.toNat_natCast]
    · rintro ⟨h1, h2, h3, rfl⟩
      refine ⟨p.toNat, by omega, by omega, by omega, by omega, rfl⟩
  · intro k hk
    exact ⟨smoothHead g k, smooth_loop_head hw n hn hk, rfl⟩

/-- Witness for C19: 51 passes over the 4x4 impulse grid. -/
theorem C19_checkpoints_witness :
    impulse4.wf ∧ (0 : Int) ≤ 51 ∧ (51 : Int) ≤ 2147483647 ∧
    ∃ fuel s, sequentialAverage.main 4 51 (some impulse4) fuel
        = Outcome.finished (Exit.completed 0 s) ∧
      (∀ (p : Int) (grid : Mat), Written.checkpoint p grid ∈ s.files ↔
        1 ≤ p ∧ p ≤ 51 ∧ p % 25 = 0 ∧ grid = blur^[p.toNat] impulse4) :=
  ⟨by decide, by decide, by decide,
    (C19_checkpoints impulse4 (by decide) 51 (by decide) (by decide)).imp
      (fun _ h => h.imp (fun _ h' => ⟨h'.1, h'.2.1⟩))⟩

/-! ## The comparison utility -/

theorem compare_innerLoop_spec {a b : Mat} (hwa : a.wf) (hwb : b.wf) {i : Int} (js : List Int)
    (hjs : ∀ j ∈ js, a.inBounds i j ∧ b.inBounds i j) (bIdentical : Bool) :
    ∃ v, CompareImages.innerLoop a b i js bIdentical = some v ∧
      (v = true ↔ bIdentical = true ∧ ∀ j ∈ js, a.pixel i j = b.pixel i j) ∧
      (bIdentical = false → v = false) := by
  induction js with
  | nil => exact ⟨bIdentical, rfl, by simp, fun h => h⟩
  | cons j js ih =>
    obtain ⟨ha, hb⟩ := hjs j (List.mem_cons_self _ _)
    obtain ⟨v, h1, h2, h3⟩ := ih (fun k hk => hjs k (List.mem_cons_of_mem _ hk))
    unfold CompareImages.innerLoop
    rw [Mat.atVec3b_eq_pixel hwa ha, Mat.atVec3b_eq_pixel hwb hb]
    by_cases heq : a.pixel i j = b.pixel i j
    · refine ⟨v, by simp [heq, h1], ?_, h3⟩
      rw [h2]
      simp [heq]
    · refine ⟨false, by simp [heq], ?_, fun _ => rfl⟩
      simp [heq]

theorem compare_outerLoop_spec {a b : Mat} (hwa : a.wf) (hwb : b.wf) (cols : Int)
    (hcols : ∀ j, 0 ≤ j → j < cols → 0 ≤ j ∧ j < (a.cols : Int) ∧ j < (b.cols : Int))
    (is : List Int)
    (his : ∀ i ∈ is, 0 ≤ i ∧ i < (a.rows : Int) ∧ i < (b.rows : Int)) (bIdentical : Bool) :
    ∃ v, CompareImages.outerLoop a b cols is bIdentical = some v ∧
      (v = true ↔ bIdentical = true ∧
        ∀ i ∈ is, ∀ j, 0 ≤ j → j < cols → a.pixel i j = b.pixel i j) := by
  induction is generalizing bIdentical with
  | nil => exact ⟨bIdentical, rfl, by simp⟩
  | cons i is ih =>
    obtain ⟨hi0, hia, hib⟩ := his i (List.mem_cons_self _ _)
    have hjs : ∀ j ∈ loopRangeLt 0 cols, a.inBounds i j ∧ b.inBounds i j := by
      intro j hj
      obtain ⟨j0, j1⟩ := mem_loopRangeLt.1 hj
      obtain ⟨-, ja, jb⟩ := hcols j j0 j1
      exact ⟨⟨hi0, hia, j0, ja⟩, ⟨hi0, hib, j0, jb⟩⟩
    obtain ⟨v, h1, h2, -⟩ := compare_innerLoop_spec hwa hwb _ hjs bIdentical
    obtain ⟨w, k1, k2⟩ := ih (fun k hk => his k (List.mem_cons_of_mem _ hk)) v
    refine ⟨w, ?_, ?_⟩
    · unfold CompareImages.outerLoop
      rw [h1, Option.some_bind, k1]
    · rw [k2, h2]
      simp only [List.mem_cons, forall_eq_or_imp, mem_loopRangeLt]
      constructor
      · rintro ⟨⟨hb, hrow⟩, hrest⟩
        exact ⟨hb, fun j j0 j1 => hrow j ⟨j0, j1⟩, hrest⟩
      · rintro ⟨hb, hrow, hrest⟩
        exact ⟨⟨hb, fun j hj => hrow j hj.1 hj.2⟩, hrest⟩

/-- The comparison of two well-formed grids of the same dimensions completes, and its
verdict is `TRUE` exactly when the grids agree at every pixel. -/
theorem compare_spec {a b : Mat} (hwa : a.wf) (hwb : b.wf) (hr : a.rows = b.rows)
    (hc : a.cols = b.cols) :
    ∃ v, CompareImages.compare a b = some v ∧
      (v = true ↔ ∀ i j : Int, a.inBounds i j → a.pixel i j = b.pixel i j) := by
  obtain ⟨v, h1, h2⟩ := compare_outerLoop_spec hwa hwb (b.cols : Int)
    (fun j j0 j1 => ⟨j0, by rw [hc]; exact j1, j1⟩) (loopRangeLt 0 (a.rows : Int))
    (fun i hi => by
      obtain ⟨i0, i1⟩ := mem_loopRangeLt.1 hi
      exact ⟨i0, i1, by rw [← hr]; exact i1⟩) true
  refine ⟨v, h1, ?_⟩
  rw [h2]
  simp only [true_and, mem_loopRangeLt]
  constructor
  · intro h i j hb
    exact h i ⟨hb.1, hb.2.1⟩ j hb.2.2.1 (by rw [← hc]; exact hb.2.2.2)
  · intro h i hi j j0 j1
    exact h i j ⟨hi.1, hi.2, j0, by rw [hc]; exact j1⟩

theorem Vec3b.eq_iff_channels (x y : Vec3b) :
    x = y ↔ x.val0 = y.val0 ∧ x.val1 = y.val1 ∧ x.val2 = y.val2 := by
  cases x; cases y; simp

/-- C14: for two loaded grids of equal dimensions the comparison utility returns 0 and
reports "identical" if every pixel has the same three channel values in both grids, and
"not identical" otherwise, wherever the differing pixel lies. -/
theorem C14_compare_verdict (a b : Mat) (hwa : a.wf) (hwb : b.wf) (hr : a.rows = b.rows)
    (hc : a.cols = b.cols) :
    ∃ m, CompareImages.main 3 (some a) (some b) = some (0, m) ∧
      (m = CompareImages.Message.identical ∨ m = CompareImages.Message.notIdentical) ∧
      (m = CompareImages.Message.identical ↔
        ∀ i j : Int, a.inBounds i j →
          (a.pixel i j).val0 = (b.pixel i j).val0 ∧ (a.pixel i j).val1 = (b.pixel i j).val1 ∧
            (a.pixel i j).val2 = (b.pixel i j).val2) := by
  obtain ⟨v, h1, h2⟩ := compare_spec hwa hwb hr hc
  simp only [Vec3b.eq_iff_channels] at h2
  unfold CompareImages.main
  simp only [show ¬ ((3 : Int) < 3) by decide, if_false, ne_eq, not_true_eq_false, hr, hc,
    or_self, h1, Option.map_some']
  cases v with
  | true =>
    refine ⟨_, rfl, Or.inl rfl, ?_⟩
    simp only [if_true, true_iff]
    exact h2.1 rfl
  | false =>
    refine ⟨_, rfl, Or.inr rfl, ?_⟩
    simp only [Bool.false_eq_true, if_false, reduceCtorEq, false_iff]
    intro h
    have := h2.2 h
    cases this

/-- Witness for C14: the impulse grid against the impulse grid with a second white pixel in
the last position, which differ although the first pixels agree. -/
theorem C14_compare_verdict_witness :
    impulse4.wf ∧ (⟨4, 4, white :: List.replicate 14 black ++ [white]⟩ : Mat).wf ∧
    ∃ m, CompareImages.main 3 (some impulse4)
        (some ⟨4, 4, white :: List.replicate 14 black ++ [white]⟩) = some (0, m) ∧
      (m = CompareImages.Message.identical ∨ m = CompareImages.Message.notIdentical) :=
  ⟨by decide, by decide,
    (C14_compare_verdict impulse4 ⟨4, 4, white :: List.replicate 14 black ++ [white]⟩ (by decide)
      (by decide) rfl rfl).imp (fun _ h => ⟨h.1, h.2.1⟩)⟩

/-! ## The cells the kernel reads -/

theorem innerReads_inBounds (img : Mat) (i : Int) (js : List Int) :
    ∀ p ∈ innerReads img i js, img.inBounds p.1 p.2 := by
  induction js with
  | nil => intro p hp; cases hp
  | cons j js ih =>
    intro p hp
    unfold innerReads at hp
    split at hp
    · cases hp
    · next hrow =>
      split at hp
      · exact ih p hp
      · next hcol =>
        rcases List.mem_cons.1 hp with rfl | h
        · unfold Mat.inBounds; simp only; omega
        · exact ih p h

theorem innerReads_sum (img : Mat) (ch : Vec3b → Int) (i : Int) (js : List Int) :
    ((innerReads img i js).map (fun p => ch (img.pixel p.1 p.2))).sum = rowSum img ch i js := by
  induction js with
  | nil => rfl
  | cons j js ih =>
    unfold innerReads
    split
    · next hrow => rw [rowSum_of_row_out _ hrow]; rfl
    · next hrow =>
      split
      · next hcol =>
        have hnb : ¬ img.inBounds i j := by rintro ⟨-, -, a, b⟩; omega
        rw [rowSum_cons, cell_of_not_inBounds _ hnb, ih, zero_add]
      · next hcol =>
        have hb : img.inBounds i j := by unfold Mat.inBounds; omega
        rw [rowSum_cons, List.map_cons, List.sum_cons, ih]
        simp only [cell, hb, if_true]

theorem kernelReads_inBounds (img : Mat) (r c : Int) :
    ∀ p ∈ kernelReads img r c, img.inBounds p.1 p.2 := by
  intro p hp
  unfold kernelReads at hp
  obtain ⟨i, -, hi⟩ := List.mem_flatMap.1 hp
  exact innerReads_inBounds img i _ p hi

theorem kernelReads_sum (img : Mat) (ch : Vec3b → Int) (r c : Int) :
    ((kernelReads img r c).map (fun p => ch (img.pixel p.1 p.2))).sum = windowSum img ch r c := by
  unfold kernelReads windowSum gridSum
  rw [loopRange_window, loopRange_window]
  simp only [List.flatMap_cons, List.flatMap_nil, List.append_nil, List.map_append,
    List.sum_append, innerReads_sum, List.map_cons, List.map_nil, List.sum_cons, List.sum_nil,
    add_zero, add_assoc]

theorem kernelReads_length (img : Mat) (r c : Int) :
    ((kernelReads img r c).length : Int) = windowSum img chOne r c := by
  rw [← kernelReads_sum]
  simp [chOne]

theorem mem_innerReads {img : Mat} {i j : Int} (hb : img.inBounds i j) (js : List Int)
    (hj : j ∈ js) : (i, j) ∈ innerReads img i js := by
  obtain ⟨h0, h1, h2, h3⟩ := hb
  have hrow : ¬ (i < 0 ∨ i > (img.rows : Int) - 1) := by omega
  have hcol : ¬ (j < 0 ∨ j > (img.cols : Int) - 1) := by omega
  induction js with
  | nil => cases hj
  | cons k ks ih =>
    unfold innerReads
    rw [if_neg hrow]
    rcases List.mem_cons.1 hj with rfl | hmem
    · rw [if_neg hcol]
      exact List.mem_cons_self _ _
    · split
      · exact ih hmem
      · exact List.mem_cons_of_mem _ (ih hmem)

theorem mem_kernelReads_centre {img : Mat} {r c : Int} (hb : img.inBounds r c) :
    (r, c) ∈ kernelReads img r c := by
  unfold kernelReads
  rw [loopRange_window, loopRange_window]
  apply List.mem_flatMap.2
  exact ⟨r, by simp, mem_innerReads hb _ (by simp)⟩

/-- C15: in a grid with at least one row and one column, at every valid `(r, c)` the loops
of the kernel complete with a count of at least 1, which is the number of cells read and
includes the centre cell; the three sums are the sums of the channels over the cells read;
the three divisions are defined; every cell read lies inside
`[0, rows) x [0, cols)`; and both kernels complete. -/
theorem C15_kernel_is_safe (img result : Mat) (hw : img.wf) (hwr : result.wf)
    (hrows : 1 ≤ img.rows) (hcols : 1 ≤ img.cols) (hr : result.rows = img.rows)
    (hc : result.cols = img.cols) (r c : Int) (hb : img.inBounds r c) :
    ∃ s, kernelSums img r c = some s ∧ 1 ≤ s.count ∧
      s.count = ((kernelReads img r c).length : Int) ∧
      s.sumBlue = ((kernelReads img r c).map (fun p => chBlue (img.pixel p.1 p.2))).sum ∧
      s.sumGreen = ((kernelReads img r c).map (fun p => chGreen (img.pixel p.1 p.2))).sum ∧
      s.sumRed = ((kernelReads img r c).map (fun p => chRed (img.pixel p.1 p.2))).sum ∧
      (r, c) ∈ kernelReads img r c ∧
      (∀ p ∈ kernelReads img r c,
        0 ≤ p.1 ∧ p.1 < (img.rows : Int) ∧ 0 ≤ p.2 ∧ p.2 < (img.cols : Int)) ∧
      (cdiv s.sumBlue s.count).isSome ∧ (cdiv s.sumGreen s.count).isSome ∧
      (cdiv s.sumRed s.count).isSome ∧
      (neighborhoodAverage img result r c).isSome ∧
      (ParallelTiming.neighborhoodAverage ⟨img, result, img⟩ r c).isSome := by
  have _ := hrows
  have _ := hcols
  have hpos := windowSum_chOne_pos hb
  have hne : windowSum img chOne r c ≠ 0 := by omega
  have hbr : result.inBounds r c := by
    unfold Mat.inBounds at hb ⊢; rw [hr, hc]; exact hb
  have hk := neighborhoodAverage_eq_put hw hwr hb hbr
  refine ⟨_, kernelSums_eq hw r c, hpos, (kernelReads_length img r c).symm,
    (kernelReads_sum img chBlue r c).symm, (kernelReads_sum img chGreen r c).symm,
    (kernelReads_sum img chRed r c).symm, mem_kernelReads_centre hb, kernelReads_inBounds img r c, ?_, ?_, ?_, ?_, ?_⟩
  · simp [cdiv, hne]
  · simp [cdiv, hne]
  · simp [cdiv, hne]
  · rw [hk]; rfl
  · rw [parallel_neighborhoodAverage_eq]
    simp only [hk, Option.map_some', Option.isSome_some]

/-- Witness for C15 at the corner `(3, 3)` of the 4x4 impulse grid. -/
theorem C15_kernel_is_safe_witness :
    impulse4.wf ∧ 1 ≤ impulse4.rows ∧ 1 ≤ impulse4.cols ∧ impulse4.inBounds 3 3 ∧
    ∃ s, kernelSums impulse4 3 3 = some s ∧ 1 ≤ s.count :=
  ⟨by decide, by decide, by decide, by decide,
    (C15_kernel_is_safe impulse4 impulse4 (by decide) (by decide) (by decide) (by decide) rfl rfl
      3 3 (by decide)).imp (fun _ h => ⟨h.1, h.2.1⟩)⟩

/-! ## Fewer rows than threads -/

theorem loopRangeLt_empty {lo hi : Int} (h : hi ≤ lo) : loopRangeLt lo hi = [] := by
  unfold loopRangeLt
  have : (hi - lo).toNat = 0 := by omega
  rw [this]; rfl

/-- C16: when the image has fewer than `NUM_THREADS = 10` rows, `partition` computes the
empty range `startRow = endRow = 0` for every thread `tid = 0 .. 8`, which then visits no
cell and leaves the globals as they are, and the range `[0, rows)` for thread 9, so every
row is covered. -/
theorem C16_few_rows (g : ParallelTiming.Globals) (h : (g.IMAGE.rows : Int) < ParallelTiming.NUM_THREADS) :
    (∀ tid : Int, 0 ≤ tid → tid ≤ 8 →
      ParallelTiming.rowRange ParallelTiming.NUM_THREADS g.IMAGE.rows tid = (0, 0) ∧
      workerCells g.IMAGE tid = [] ∧
      ParallelTiming.partition g tid = some g) ∧
    ParallelTiming.rowRange ParallelTiming.NUM_THREADS g.IMAGE.rows 9 = (0, (g.IMAGE.rows : Int)) ∧
    (∀ i : Int, 0 ≤ i → i < (g.IMAGE.rows : Int) →
      (ParallelTiming.rowRange ParallelTiming.NUM_THREADS g.IMAGE.rows 9).1 ≤ i ∧
      i < (ParallelTiming.rowRange ParallelTiming.NUM_THREADS g.IMAGE.rows 9).2) := by
  have hr : (0 : Int) ≤ (g.IMAGE.rows : Int) := by positivity
  have hW : (0 : Int) < ParallelTiming.NUM_THREADS := by decide
  have h10 : ParallelTiming.NUM_THREADS = 10 := rfl
  rw [h10] at h
  have hq : (g.IMAGE.rows : Int) / 10 = 0 := by omega
  have hm : (g.IMAGE.rows : Int) % 10 = (g.IMAGE.rows : Int) := by omega
  have hlast : ParallelTiming.rowRange ParallelTiming.NUM_THREADS g.IMAGE.rows 9 =
      (0, (g.IMAGE.rows : Int)) := by
    rw [rowRange_eq hr hW, h10, hq, hm]
    simp
  refine ⟨?_, hlast, ?_⟩
  · intro tid h0 h8
    have hrange : ParallelTiming.rowRange ParallelTiming.NUM_THREADS g.IMAGE.rows tid = (0, 0) := by
      rw [rowRange_eq hr hW, h10, hq]
      have hne : ¬ tid = 10 - 1 := by omega
      rw [if_neg hne]
      simp
    have hcells : workerCells g.IMAGE tid = [] := by
      unfold workerCells
      rw [hrange, loopRangeLt_empty (le_refl _)]
      rfl
    refine ⟨hrange, hcells, ?_⟩
    rw [partition_eq_cellsLoop, hcells, cellsLoop_nil]
    rfl
  · intro i i0 i1
    rw [hlast]
    exact ⟨i0, i1⟩

/-- Witness for C16: the 4x4 impulse grid. -/
theorem C16_few_rows_witness :
    ((impulse4.rows : Int) < ParallelTiming.NUM_THREADS) ∧
    ParallelTiming.rowRange ParallelTiming.NUM_THREADS impulse4.rows 9 = (0, (impulse4.rows : Int)) :=
  ⟨by decide, (C16_few_rows ⟨impulse4, impulse4, impulse4⟩ (by decide)).2.1⟩

/-! ## Independence of the workers -/

theorem workerCells_inBounds {img : Mat} {tid : Int} (h0 : 0 ≤ tid)
    (h1 : tid < ParallelTiming.NUM_THREADS) :
    ∀ p ∈ workerCells img tid, img.inBounds p.1 p.2 := by
  intro p hp
  have hr : (0 : Int) ≤ (img.rows : Int) := by positivity
  have hW : (0 : Int) < ParallelTiming.NUM_THREADS := by decide
  obtain ⟨a, b, c, d⟩ := mem_workerCells.1 hp
  have := rowRange_fst_nonneg hr hW h0
  have := rowRange_snd_le_rows hr hW h1
  exact ⟨by omega, by omega, c, d⟩

/-- A worker leaves `IMAGE` and `ORIGINAL` alone and changes `RESULT_IMAGE` only in the rows
of its own range. -/
theorem partition_frame {g : ParallelTiming.Globals} (hw : g.IMAGE.wf) (hwr : g.RESULT_IMAGE.wf)
    (hr : g.RESULT_IMAGE.rows = g.IMAGE.rows) (hc : g.RESULT_IMAGE.cols = g.IMAGE.cols)
    {tid : Int} (h0 : 0 ≤ tid) (h1 : tid < ParallelTiming.NUM_THREADS) :
    ∃ out, ParallelTiming.partition g tid = some { g with RESULT_IMAGE := out } ∧ out.wf ∧
      out.rows = g.IMAGE.rows ∧ out.cols = g.IMAGE.cols ∧
      ∀ i j : Int, g.IMAGE.inBounds i j →
        out.atVec3b i j =
          if (ParallelTiming.rowRange ParallelTiming.NUM_THREADS g.IMAGE.rows tid).1 ≤ i ∧
              i < (ParallelTiming.rowRange ParallelTiming.NUM_THREADS g.IMAGE.rows tid).2
          then some (avgPixel g.IMAGE i j) else g.RESULT_IMAGE.atVec3b i j := by
  obtain ⟨out, e1, e2, e3, e4, e5⟩ := cellsLoop_spec hw (workerCells g.IMAGE tid)
    (workerCells_inBounds h0 h1) g.RESULT_IMAGE hwr hr hc
  refine ⟨out, ?_, e2, e3, e4, ?_⟩
  · rw [partition_eq_cellsLoop, e1]; rfl
  · intro i j hb
    have hbo : out.inBounds i j := by
      unfold Mat.inBounds at hb ⊢; rw [e3, e4]; exact hb
    have hbr : g.RESULT_IMAGE.inBounds i j := by
      unfold Mat.inBounds at hb ⊢; rw [hr, hc]; exact hb
    rw [Mat.atVec3b_eq_pixel e2 hbo, e5 i j hb, Mat.atVec3b_eq_pixel hwr hbr]
    have hmem : (i, j) ∈ workerCells g.IMAGE tid ↔
        (ParallelTiming.rowRange ParallelTiming.NUM_THREADS g.IMAGE.rows tid).1 ≤ i ∧
          i < (ParallelTiming.rowRange ParallelTiming.NUM_THREADS g.IMAGE.rows tid).2 := by
      rw [mem_workerCells]
      exact ⟨fun h => ⟨h.1, h.2.1⟩, fun h => ⟨h.1, h.2, hb.2.2.1, hb.2.2.2⟩⟩
    by_cases hin : (ParallelTiming.rowRange ParallelTiming.NUM_THREADS g.IMAGE.rows tid).1 ≤ i ∧
        i < (ParallelTiming.rowRange ParallelTiming.NUM_THREADS g.IMAGE.rows tid).2
    · rw [if_pos (hmem.2 hin), if_pos hin]
    · rw [if_neg (fun h => hin (hmem.1 h)), if_neg hin]

/-- C17: from any state of the globals with well-formed grids of the same dimensions,
worker `tid` completes, leaves `IMAGE` (and `ORIGINAL`) as they are, calls the kernel only
at cells of rows in its own range and leaves every pixel of `RESULT_IMAGE` outside those
rows as it was; the row ranges of two distinct workers have no row in common; the ten
workers, run to completion in any order, leave the same globals as `runParallel`; and so
does any sequence of kernel calls in which the calls of the ten workers are interleaved. -/
theorem C17_workers_are_independent (g : ParallelTiming.Globals) (hw : g.IMAGE.wf)
    (hwr : g.RESULT_IMAGE.wf) (hr : g.RESULT_IMAGE.rows = g.IMAGE.rows)
    (hc : g.RESULT_IMAGE.cols = g.IMAGE.cols) :
    (∀ tid : Int, 0 ≤ tid → tid < ParallelTiming.NUM_THREADS →
      ∃ g', ParallelTiming.partition g tid = some g' ∧ g'.IMAGE = g.IMAGE ∧
        g'.ORIGINAL = g.ORIGINAL ∧
        (∀ p ∈ workerCells g.IMAGE tid,
          (ParallelTiming.rowRange ParallelTiming.NUM_THREADS g.IMAGE.rows tid).1 ≤ p.1 ∧
          p.1 < (ParallelTiming.rowRange ParallelTiming.NUM_THREADS g.IMAGE.rows tid).2) ∧
        (∀ i j : Int, g.IMAGE.inBounds i j →
          ¬ ((ParallelTiming.rowRange ParallelTiming.NUM_THREADS g.IMAGE.rows tid).1 ≤ i ∧
            i < (ParallelTiming.rowRange ParallelTiming.NUM_THREADS g.IMAGE.rows tid).2) →
          g'.RESULT_IMAGE.atVec3b i j = g.RESULT_IMAGE.atVec3b i j)) ∧
    (∀ t t' i : Int, 0 ≤ t → t < ParallelTiming.NUM_THREADS → 0 ≤ t' →
      t' < ParallelTiming.NUM_THREADS → t ≠ t' →
      ¬ (((ParallelTiming.rowRange ParallelTiming.NUM_THREADS g.IMAGE.rows t).1 ≤ i ∧
          i < (ParallelTiming.rowRange ParallelTiming.NUM_THREADS g.IMAGE.rows t).2) ∧
        ((ParallelTiming.rowRange ParallelTiming.NUM_THREADS g.IMAGE.rows t').1 ≤ i ∧
          i < (ParallelTiming.rowRange ParallelTiming.NUM_THREADS g.IMAGE.rows t').2))) ∧
    (∀ order : List Int, List.Perm order (loopRangeLt 0 ParallelTiming.NUM_THREADS) →
      ParallelTiming.runWorkers order g = ParallelTiming.runParallel g ∧
      ParallelTiming.runWorkers order g = some { g with RESULT_IMAGE := blur g.IMAGE }) ∧
    (∀ calls : List (Int × Int),
      (∀ p, p ∈ calls ↔ ∃ tid : Int, 0 ≤ tid ∧ tid < ParallelTiming.NUM_THREADS ∧
        p ∈ workerCells g.IMAGE tid) →
      calls.foldlM (fun st p => ParallelTiming.neighborhoodAverage st p.1 p.2) g
        = ParallelTiming.runParallel g) := by
  have hrows : (0 : Int) ≤ (g.IMAGE.rows : Int) := by positivity
  have hW : (0 : Int) < ParallelTiming.NUM_THREADS := by decide
  refine ⟨?_, ?_, ?_, ?_⟩
  · intro tid h0 h1
    obtain ⟨out, e1, -, -, -, e5⟩ := partition_frame hw hwr hr hc h0 h1
    refine ⟨_, e1, rfl, rfl, ?_, ?_⟩
    · intro p hp
      obtain ⟨a, b, -, -⟩ := mem_workerCells.1 hp
      exact ⟨a, b⟩
    · intro i j hb hout
      rw [e5 i j hb, if_neg hout]
  · intro t t' i _ ht _ ht' hne ⟨⟨a, b⟩, ⟨c, d⟩⟩
    rcases lt_or_gt_of_ne hne with hlt | hgt
    · have := rowRange_snd_le_fst hrows hW hlt ht'
      omega
    · have := rowRange_snd_le_fst hrows hW hgt ht
      omega
  · intro order hperm
    have horder : ∀ t : Int, t ∈ order ↔ 0 ≤ t ∧ t < ParallelTiming.NUM_THREADS := by
      intro t
      rw [hperm.mem_iff, mem_loopRangeLt]
    rw [runWorkers_eq_blur horder hw hwr hr hc, runParallel_eq_blur hw hwr hr hc]
    exact ⟨rfl, rfl⟩
  · intro calls hcalls
    have hcover : ∀ p : Int × Int, p ∈ calls ↔ g.IMAGE.inBounds p.1 p.2 := by
      intro p
      rw [hcalls p, ← mem_order_workerCells
        (fun t => (mem_loopRangeLt : t ∈ loopRangeLt 0 ParallelTiming.NUM_THREADS ↔ _)) p,
        List.mem_flatMap]
      constructor
      · rintro ⟨tid, a, b, c⟩
        exact ⟨tid, mem_loopRangeLt.2 ⟨a, b⟩, c⟩
      · rintro ⟨tid, a, c⟩
        exact ⟨tid, (mem_loopRangeLt.1 a).1, (mem_loopRangeLt.1 a).2, c⟩
    rw [parallel_cells_fold, cellsLoop_cover hw calls hcover _ hwr hr hc,
      runParallel_eq_blur hw hwr hr hc]
    rfl

/-- Witness for C17 on the globals of the first pass over the 4x4 impulse grid. -/
theorem C17_workers_are_independent_witness :
    impulse4.wf ∧
    ∀ order : List Int, List.Perm order (loopRangeLt 0 ParallelTiming.NUM_THREADS) →
      ParallelTiming.runWorkers order ⟨impulse4, impulse4, impulse4⟩
        = ParallelTiming.runParallel ⟨impulse4, impulse4, impulse4⟩ ∧
      ParallelTiming.runWorkers order ⟨impulse4, impulse4, impulse4⟩
        = some ⟨impulse4, blur impulse4, impulse4⟩ :=
  ⟨by decide,
    (C17_workers_are_independent ⟨impulse4, impulse4, impulse4⟩ (by decide) (by decide) rfl
      rfl).2.2.1⟩

/-! ## Range of the sums and of the stored values -/

theorem cell_chOne_le_one (img : Mat) (i j : Int) : cell img chOne i j ≤ 1 := by
  unfold cell chOne; split <;> omega

theorem windowSum_chOne_le_nine (img : Mat) (r c : Int) : windowSum img chOne r c ≤ 9 := by
  rw [windowSum_unfold]
  have h1 := cell_chOne_le_one img (r - 1) (c - 1)
  have h2 := cell_chOne_le_one img (r - 1) c
  have h3 := cell_chOne_le_one img (r - 1) (c + 1)
  have h4 := cell_chOne_le_one img r (c - 1)
  have h5 := cell_chOne_le_one img r c
  have h6 := cell_chOne_le_one img r (c + 1)
  have h7 := cell_chOne_le_one img (r + 1) (c - 1)
  have h8 := cell_chOne_le_one img (r + 1) c
  have h9 := cell_chOne_le_one img (r + 1) (c + 1)
  omega

theorem cdiv_window {ch : Vec3b → Int} (h : IsColour ch) {img : Mat} {r c : Int}
    (hb : img.inBounds r c) :
    ∃ q, cdiv (windowSum img ch r c) (windowSum img chOne r c) = some q ∧ 0 ≤ q ∧ q ≤ 255 ∧
      ((saturate_cast q).val : Int) = q ∧
      ((toUchar ((saturate_cast q).val : Int)).val : Int) = q := by
  obtain ⟨e, h0, h1⟩ := quotient_bounds h hb
  have hpos := windowSum_chOne_pos hb
  have hne : windowSum img chOne r c ≠ 0 := by omega
  refine ⟨windowSum img ch r c / windowSum img chOne r c, ?_, h0, h1,
    saturate_cast_of_range h0 h1, ?_⟩
  · simp [cdiv, hne, e]
  · rw [saturate_cast_of_range h0 h1, toUchar_of_range h0 h1]

/-- C18: at every valid `(r, c)` of a grid of 8-bit channels the loops of the kernel
complete with each channel sum in `[0, 2295]` and a count of at most 9, far below the
range of `int`; each quotient `sum / count` lies in `[0, 255]`, so `saturate_cast<uchar>`
returns it unchanged and so does the store into the `uchar` channel; the kernel completes
and every channel of the resulting grid lies in `[0, 255]`. -/
theorem C18_no_overflow_no_clamp (img result : Mat) (hw : img.wf) (hwr : result.wf)
    (hr : result.rows = img.rows) (hc : result.cols = img.cols) (r c : Int)
    (hb : img.inBounds r c) :
    ∃ s, kernelSums img r c = some s ∧
      (0 ≤ s.sumBlue ∧ s.sumBlue ≤ 2295) ∧ (0 ≤ s.sumGreen ∧ s.sumGreen ≤ 2295) ∧
      (0 ≤ s.sumRed ∧ s.sumRed ≤ 2295) ∧ (1 ≤ s.count ∧ s.count ≤ 9) ∧
      (∀ sum : Int, sum = s.sumBlue ∨ sum = s.sumGreen ∨ sum = s.sumRed →
        ∃ q, cdiv sum s.count = some q ∧ 0 ≤ q ∧ q ≤ 255 ∧
          ((saturate_cast q).val : Int) = q ∧
          ((toUchar ((saturate_cast q).val : Int)).val : Int) = q) ∧
      ∃ out, neighborhoodAverage img result r c = some out ∧
        ∀ v ∈ out.data, v.val0.val ≤ 255 ∧ v.val1.val ≤ 255 ∧ v.val2.val ≤ 255 := by
  have hbr : result.inBounds r c := by
    unfold Mat.inBounds at hb ⊢; rw [hr, hc]; exact hb
  have h9 := windowSum_chOne_le_nine img r c
  have hpos := windowSum_chOne_pos hb
  have hB := windowSum_colour_bounds (Or.inl rfl : IsColour chBlue) img r c
  have hG := windowSum_colour_bounds (Or.inr (Or.inl rfl) : IsColour chGreen) img r c
  have hR := windowSum_colour_bounds (Or.inr (Or.inr rfl) : IsColour chRed) img r c
  have hB2 : windowSum img chBlue r c ≤ 2295 := by omega
  have hG2 : windowSum img chGreen r c ≤ 2295 := by omega
  have hR2 : windowSum img chRed r c ≤ 2295 := by omega
  refine ⟨_, kernelSums_eq hw r c, ⟨hB.1, hB2⟩, ⟨hG.1, hG2⟩, ⟨hR.1, hR2⟩,
    ⟨hpos, h9⟩, ?_, _, neighborhoodAverage_eq_put hw hwr hb hbr, ?_⟩
  · rintro sum (rfl | rfl | rfl)
    · exact cdiv_window (Or.inl rfl) hb
    · exact cdiv_window (Or.inr (Or.inl rfl)) hb
    · exact cdiv_window (Or.inr (Or.inr rfl)) hb
  · intro v _
    have a := v.val0.isLt
    have b := v.val1.isLt
    have d := v.val2.isLt
    omega

/-- Witness for C18 at the corner `(0, 0)` of the 4x4 impulse grid. -/
theorem C18_no_overflow_no_clamp_witness :
    impulse4.wf ∧ impulse4.inBounds 0 0 ∧
    ∃ s, kernelSums impulse4 0 0 = some s ∧ (0 ≤ s.sumBlue ∧ s.sumBlue ≤ 2295) :=
  ⟨by decide, by decide,
    (C18_no_overflow_no_clamp impulse4 impulse4 (by decide) (by decide) rfl rfl 0 0
      (by decide)).imp (fun _ h => ⟨h.1, h.2.1⟩)⟩

/-! ## The average lies between the extremes -/

theorem le_foldr_min (l : List Int) (lo : Int) :
    lo ≤ l.foldr min 255 ↔ lo ≤ 255 ∧ ∀ x ∈ l, lo ≤ x := by
  induction l with
  | nil => simp
  | cons a as ih =>
    simp only [List.foldr_cons, le_min_iff, ih, List.mem_cons, forall_eq_or_imp]
    tauto

theorem foldr_max_le (l : List Int) (hi : Int) :
    l.foldr max 0 ≤ hi ↔ 0 ≤ hi ∧ ∀ x ∈ l, x ≤ hi := by
  induction l with
  | nil => simp
  | cons a as ih =>
    simp only [List.foldr_cons, max_le_iff, ih, List.mem_cons, forall_eq_or_imp]
    tauto

theorem le_chanMin (m : Mat) (ch : Vec3b → Int) (lo : Int) :
    lo ≤ m.chanMin ch ↔ lo ≤ 255 ∧ ∀ v ∈ m.data, lo ≤ ch v := by
  unfold Mat.chanMin
  rw [le_foldr_min]
  simp

theorem chanMax_le (m : Mat) (ch : Vec3b → Int) (hi : Int) :
    m.chanMax ch ≤ hi ↔ 0 ≤ hi ∧ ∀ v ∈ m.data, ch v ≤ hi := by
  unfold Mat.chanMax
  rw [foldr_max_le]
  simp

theorem colour_avgPixel {ch : Vec3b → Int} (h : IsColour ch) {img : Mat} {r c : Int}
    (hb : img.inBounds r c) :
    ch (avgPixel img r c) = windowSum img ch r c / windowSum img chOne r c := by
  obtain ⟨h0, h1, h2⟩ := avgPixel_channels hb
  rcases h with rfl | rfl | rfl
  · exact h0
  · exact h1
  · exact h2

theorem mem_neighbourhood {img : Mat} {r c : Int} {p : Int × Int} :
    p ∈ Spec.neighbourhood img r c ↔
      (r - 1 ≤ p.1 ∧ p.1 ≤ r + 1) ∧ (c - 1 ≤ p.2 ∧ p.2 ≤ c + 1) ∧ img.inBounds p.1 p.2 := by
  unfold Spec.neighbourhood Mat.inBounds
  simp only [Finset.mem_filter, Finset.mem_product, Finset.mem_Icc]
  tauto

theorem centre_mem_neighbourhood {img : Mat} {r c : Int} (hb : img.inBounds r c) :
    (r, c) ∈ Spec.neighbourhood img r c :=
  mem_neighbourhood.2 ⟨⟨by simp, by simp⟩, ⟨by simp, by simp⟩, hb⟩

/-- The value stored in a colour channel lies between any two bounds of that channel over
the cells of the clipped window. -/
theorem avgPixel_between {ch : Vec3b → Int} (h : IsColour ch) {img : Mat} {r c : Int}
    (hb : img.inBounds r c) {lo hi : Int}
    (hS : ∀ p ∈ Spec.neighbourhood img r c, lo ≤ ch (img.pixel p.1 p.2) ∧
      ch (img.pixel p.1 p.2) ≤ hi) :
    lo ≤ ch (avgPixel img r c) ∧ ch (avgPixel img r c) ≤ hi := by
  have hpos := windowSum_chOne_pos hb
  rw [colour_avgPixel h hb]
  have hcard := windowSum_chOne_eq_card img r c
  have hsum := windowSum_eq_sum img ch r c
  have hlo : ((Spec.neighbourhood img r c).card : Int) * lo ≤
      ∑ p in Spec.neighbourhood img r c, ch (img.pixel p.1 p.2) := by
    have := Finset.card_nsmul_le_sum (Spec.neighbourhood img r c)
      (fun p => ch (img.pixel p.1 p.2)) lo (fun p hp => (hS p hp).1)
    simpa using this
  have hhi : ∑ p in Spec.neighbourhood img r c, ch (img.pixel p.1 p.2) ≤
      ((Spec.neighbourhood img r c).card : Int) * hi := by
    have := Finset.sum_le_card_nsmul (Spec.neighbourhood img r c)
      (fun p => ch (img.pixel p.1 p.2)) hi (fun p hp => (hS p hp).2)
    simpa using this
  rw [← hsum, ← hcard] at hlo hhi
  constructor
  · apply (Int.le_ediv_iff_mul_le (by omega)).2
    rw [mul_comm]; exact hlo
  · apply Int.ediv_le_of_le_mul (by omega)
    rw [mul_comm]; exact hhi

theorem mem_blur_data {img : Mat} {v : Vec3b} (hv : v ∈ (blur img).data) :
    ∃ i j : Int, img.inBounds i j ∧ v = avgPixel img i j := by
  unfold blur at hv
  simp only [List.mem_map, List.mem_range] at hv
  obtain ⟨k, hk, rfl⟩ := hv
  have hcpos : 0 < img.cols := by
    rcases Nat.eq_zero_or_pos img.cols with h0 | h0
    · rw [h0] at hk; simp at hk
    · exact h0
  refine ⟨_, _, ⟨by positivity, ?_, by positivity, ?_⟩, rfl⟩
  · exact_mod_cast (Nat.div_lt_iff_lt_mul hcpos).2 hk
  · exact_mod_cast Nat.mod_lt _ hcpos

/-- One pass keeps every colour channel of every pixel within any bounds that hold for the
input grid. -/
theorem blur_between {ch : Vec3b → Int} (h : IsColour ch) {img : Mat} (hw : img.wf) {lo hi : Int}
    (hall : ∀ v ∈ img.data, lo ≤ ch v ∧ ch v ≤ hi) :
    ∀ v ∈ (blur img).data, lo ≤ ch v ∧ ch v ≤ hi := by
  intro v hv
  obtain ⟨i, j, hb, rfl⟩ := mem_blur_data hv
  apply avgPixel_between h hb
  intro p hp
  exact hall _ (pixel_mem_data hw (mem_neighbourhood.1 hp).2.2)

theorem blur_iterate_between {ch : Vec3b → Int} (h : IsColour ch) {img : Mat} (hw : img.wf)
    {lo hi : Int} (hall : ∀ v ∈ img.data, lo ≤ ch v ∧ ch v ≤ hi) (k : Nat) :
    ∀ v ∈ (blur^[k] img).data, lo ≤ ch v ∧ ch v ≤ hi := by
  induction k with
  | zero => exact hall
  | succ n ih =>
    rw [Function.iterate_succ_apply']
    exact blur_between h (blur_iterate_wf hw n) ih

/-- Any number of passes neither lowers the least nor raises the greatest value of a colour
channel over the grid. -/
theorem blur_iterate_extremes {ch : Vec3b → Int} (h : IsColour ch) {img : Mat} (hw : img.wf)
    (k : Nat) :
    img.chanMin ch ≤ (blur^[k] img).chanMin ch ∧ (blur^[k] img).chanMax ch ≤ img.chanMax ch := by
  have hmin := (le_chanMin img ch (img.chanMin ch)).1 (le_refl _)
  have hmax := (chanMax_le img ch (img.chanMax ch)).1 (le_refl _)
  have hall : ∀ v ∈ img.data, img.chanMin ch ≤ ch v ∧ ch v ≤ img.chanMax ch :=
    fun v hv => ⟨hmin.2 v hv, hmax.2 v hv⟩
  have hk := blur_iterate_between h hw hall k
  exact ⟨(le_chanMin _ ch _).2 ⟨hmin.1, fun v hv => (hk v hv).1⟩,
    (chanMax_le _ ch _).2 ⟨hmax.1, fun v hv => (hk v hv).2⟩⟩

/-- C20: at every valid `(r, c)` of a well-formed non-empty grid the kernel completes and,
in each colour channel, the value it stores is at least the minimum and at most the maximum
of that channel over the cells of the clipped window; and after any number `k` of passes,
sequential or parallel, the minimum of the channel over the grid is not lower and its
maximum not higher than in the input grid. -/
theorem C20_average_between_extremes (img result : Mat) (hw : img.wf) (hne : img.nonEmpty)
    (hwr : result.wf) (hr : result.rows = img.rows) (hc : result.cols = img.cols)
    (ch : Vec3b → Int) (hch : IsColour ch) :
    (∀ r c : Int, img.inBounds r c →
      ∃ (out : Mat) (v : Vec3b) (hS : (Spec.neighbourhood img r c).Nonempty),
        neighborhoodAverage img result r c = some out ∧ out.atVec3b r c = some v ∧
        (Spec.neighbourhood img r c).inf' hS (fun p => ch (img.pixel p.1 p.2)) ≤ ch v ∧
        ch v ≤ (Spec.neighbourhood img r c).sup' hS (fun p => ch (img.pixel p.1 p.2))) ∧
    (∀ k : Nat, ∃ s p,
      SequentialTiming.passLoop { SequentialTiming.initial img with averageOps := (k : Int) }
        = some s ∧
      ParallelTiming.passLoop { ParallelTiming.initial img with averageOps := (k : Int) }
        = some p ∧
      img.chanMin ch ≤ s.image.chanMin ch ∧ s.image.chanMax ch ≤ img.chanMax ch ∧
      img.chanMin ch ≤ p.g.IMAGE.chanMin ch ∧ p.g.IMAGE.chanMax ch ≤ img.chanMax ch) := by
  have _ := hne
  constructor
  · intro r c hb
    have hbr : result.inBounds r c := by
      unfold Mat.inBounds at hb ⊢; rw [hr, hc]; exact hb
    have hS : (Spec.neighbourhood img r c).Nonempty := ⟨(r, c), centre_mem_neighbourhood hb⟩
    have hat : (result.put r c (avgPixel img r c)).atVec3b r c = some (avgPixel img r c) := by
      rw [Mat.atVec3b_eq_pixel (Mat.put_wf hwr _ _ _) hbr, Mat.pixel_put_same hwr hbr]
    have hlo : ∀ p ∈ Spec.neighbourhood img r c,
        (Spec.neighbourhood img r c).inf' hS (fun p => ch (img.pixel p.1 p.2))
          ≤ ch (img.pixel p.1 p.2) :=
      fun p hp => Finset.inf'_le (fun p : Int × Int => ch (img.pixel p.1 p.2)) hp
    have hhi : ∀ p ∈ Spec.neighbourhood img r c,
        ch (img.pixel p.1 p.2)
          ≤ (Spec.neighbourhood img r c).sup' hS (fun p => ch (img.pixel p.1 p.2)) :=
      fun p hp => Finset.le_sup' (fun p : Int × Int => ch (img.pixel p.1 p.2)) hp
    have hbetween := avgPixel_between hch hb (fun p hp => ⟨hlo p hp, hhi p hp⟩)
    exact ⟨result.put r c (avgPixel img r c), avgPixel img r c, hS,
      neighborhoodAverage_eq_put hw hwr hb hbr, hat, hbetween.1, hbetween.2⟩
  · intro k
    have hs : seqOk { SequentialTiming.initial img with averageOps := (k : Int) } :=
      ⟨hw, hw, rfl, rfl⟩
    have hp : parOk { ParallelTiming.initial img with averageOps := (k : Int) } :=
      ⟨hw, hw, rfl, rfl⟩
    have hext := blur_iterate_extremes hch hw k
    refine ⟨_, _, seq_passLoop_eq hs, par_passLoop_eq hp, ?_, ?_, ?_, ?_⟩
    · rw [seqAfter_image]; simpa using hext.1
    · rw [seqAfter_image]; simpa using hext.2
    · rw [parAfter_image]; simpa using hext.1
    · rw [parAfter_image]; simpa using hext.2

/-- Witness for C20: the blue channel of the 4x4 impulse grid after three passes. -/
theorem C20_average_between_extremes_witness :
    impulse4.wf ∧ impulse4.nonEmpty ∧ IsColour chBlue ∧
    ∃ s p,
      SequentialTiming.passLoop { SequentialTiming.initial impulse4 with averageOps := ((3 : Nat) : Int) }
        = some s ∧
      ParallelTiming.passLoop { ParallelTiming.initial impulse4 with averageOps := ((3 : Nat) : Int) }
        = some p ∧
      impulse4.chanMin chBlue ≤ s.image.chanMin chBlue ∧
      s.image.chanMax chBlue ≤ impulse4.chanMax chBlue ∧
      impulse4.chanMin chBlue ≤ p.g.IMAGE.chanMin chBlue ∧
      p.g.IMAGE.chanMax chBlue ≤ impulse4.chanMax chBlue :=
  ⟨by decide, by decide, Or.inl rfl,
    (C20_average_between_extremes impulse4 impulse4 (by decide) (by decide) (by decide) rfl rfl
      chBlue (Or.inl rfl)).2 3⟩

/-! ## The pass and transposition -/

theorem transpose_wf (m : Mat) : m.transpose.wf := by
  simp [Mat.wf, Mat.transpose]

theorem transpose_inBounds (m : Mat) (i j : Int) : m.transpose.inBounds j i ↔ m.inBounds i j := by
  unfold Mat.inBounds Mat.transpose
  simp only
  tauto

theorem transpose_pixel {m : Mat} {i j : Int} (h : m.inBounds i j) :
    m.transpose.pixel j i = m.pixel i j := by
  have hb : m.transpose.inBounds j i := (transpose_inBounds m i j).2 h
  have hl := Mat.offset_lt (transpose_wf m) hb
  obtain ⟨h0, h1, h2, h3⟩ := h
  lift i to ℕ using h0
  lift j to ℕ using h2
  have h1' : i < m.rows := by exact_mod_cast h1
  have hoff : m.transpose.offset (j : Int) (i : Int) = j * m.rows + i := by
    unfold Mat.offset
    have : ((j : Int) * (m.transpose.cols : Int) + (i : Int)) = ((j * m.rows + i : Nat) : Int) := by
      simp [Mat.transpose]
    rw [this]; exact Int.toNat_natCast _
  have hlen : j * m.rows + i < m.cols * m.rows := by
    have := hl; rw [hoff] at this; simpa [Mat.transpose] using this
  have hdiv : (j * m.rows + i) / m.rows = j := by
    rw [Nat.mul_comm, Nat.mul_add_div (by omega), Nat.div_eq_of_lt h1']; simp
  have hmod : (j * m.rows + i) % m.rows = i := by
    rw [Nat.mul_comm, Nat.mul_add_mod, Nat.mod_eq_of_lt h1']
  have hpix : m.transpose.pixel (j : Int) (i : Int) = (m.transpose.atVec3b (j : Int) (i : Int)).getD black := rfl
  rw [hpix]
  simp only [Mat.atVec3b, hb, if_true, hoff]
  simp only [Mat.transpose, List.getElem?_map, List.getElem?_range hlen, Option.map_some',
    Option.getD_some, hdiv, hmod]

theorem cell_transpose (m : Mat) (ch : Vec3b → Int) (i j : Int) :
    cell m.transpose ch j i = cell m ch i j := by
  unfold cell
  by_cases h : m.inBounds i j
  · rw [if_pos ((transpose_inBounds m i j).2 h), if_pos h, transpose_pixel h]
  · rw [if_neg (fun hh => h ((transpose_inBounds m i j).1 hh)), if_neg h]

theorem windowSum_transpose (m : Mat) (ch : Vec3b → Int) (r c : Int) :
    windowSum m.transpose ch c r = windowSum m ch r c := by
  rw [windowSum_unfold, windowSum_unfold]
  simp only [cell_transpose]
  ring

theorem avgPixel_transpose (m : Mat) (r c : Int) :
    avgPixel m.transpose c r = avgPixel m r c := by
  unfold avgPixel
  simp only [windowSum_transpose]

/-- The averaged grid of the transpose is the transpose of the averaged grid. -/
theorem blur_transpose (g : Mat) : blur g.transpose = (blur g).transpose := by
  refine Mat.ext_pixel (blur_wf g.transpose) (transpose_wf (blur g)) ?_ ?_ ?_
  · rfl
  · rfl
  intro j i hb
  have hbT : g.transpose.inBounds j i := hb
  have hg : g.inBounds i j := (transpose_inBounds g i j).1 hbT
  have hbg : (blur g).inBounds i j := hg
  rw [blur_pixel hbT, avgPixel_transpose, transpose_pixel hbg, blur_pixel hg]

theorem transpose_transpose {m : Mat} (hw : m.wf) : m.transpose.transpose = m := by
  refine Mat.ext_pixel (transpose_wf m.transpose) hw ?_ ?_ ?_
  · rfl
  · rfl
  intro i j hb
  have hm : m.inBounds i j := hb
  have hT : m.transpose.inBounds j i := (transpose_inBounds m i j).2 hm
  rw [transpose_pixel hT, transpose_pixel hm]

/-- C21: for a well-formed non-empty grid `g`, one pass over the transpose of `g` and one
pass over `g` both complete, and the result of the first is the transpose of the result of
the second; already the kernel stores at `(c, r)` of the transpose what it stores at
`(r, c)` of `g`, although it leaves a row out with `break` and a column with `continue`. -/
theorem C21_pass_commutes_with_transpose (g : Mat) (hw : g.wf) (hne : g.nonEmpty) :
    (∃ out outT, sweep g g.clone = some out ∧
      sweep g.transpose g.transpose.clone = some outT ∧ outT = out.transpose ∧
      ∀ i j : Int, g.inBounds i j → outT.atVec3b j i = out.atVec3b i j) ∧
    (∀ r c : Int, g.inBounds r c →
      ∃ m mT v, neighborhoodAverage g g.clone r c = some m ∧
        neighborhoodAverage g.transpose g.transpose.clone c r = some mT ∧
        m.atVec3b r c = some v ∧ mT.atVec3b c r = some v) ∧
    g.transpose.rows = g.cols ∧ g.transpose.cols = g.rows ∧
    (∀ i j : Int, g.inBounds i j → g.transpose.atVec3b j i = g.atVec3b i j) ∧
    g.transpose.transpose = g := by
  have _ := hne
  have hwT := transpose_wf g
  refine ⟨⟨blur g, blur g.transpose, ?_, ?_, blur_transpose g, ?_⟩, ?_, rfl, rfl, ?_,
    transpose_transpose hw⟩
  · rw [Mat.clone_eq, sweep_eq_blur hw hw rfl rfl]
  · rw [Mat.clone_eq, sweep_eq_blur hwT hwT rfl rfl]
  · intro i j hb
    have hbT : (blur g.transpose).inBounds j i := (transpose_inBounds g i j).2 hb
    have hbg : (blur g).inBounds i j := hb
    rw [Mat.atVec3b_eq_pixel (blur_wf _) hbT, Mat.atVec3b_eq_pixel (blur_wf _) hbg,
      blur_transpose, transpose_pixel hbg]
  · intro r c hb
    have hbT : g.transpose.inBounds c r := (transpose_inBounds g r c).2 hb
    refine ⟨g.put r c (avgPixel g r c), g.transpose.put c r (avgPixel g.transpose c r),
      avgPixel g r c, ?_, ?_, ?_, ?_⟩
    · rw [Mat.clone_eq]; exact neighborhoodAverage_eq_put hw hw hb hb
    · rw [Mat.clone_eq]; exact neighborhoodAverage_eq_put hwT hwT hbT hbT
    · rw [Mat.atVec3b_eq_pixel (Mat.put_wf hw _ _ _) hb, Mat.pixel_put_same hw hb]
    · rw [Mat.atVec3b_eq_pixel (Mat.put_wf hwT _ _ _) hbT, Mat.pixel_put_same hwT hbT,
        avgPixel_transpose]
  · intro i j hb
    have hbT : g.transpose.inBounds j i := (transpose_inBounds g i j).2 hb
    rw [Mat.atVec3b_eq_pixel hwT hbT, Mat.atVec3b_eq_pixel hw hb, transpose_pixel hb]

/-- Witness for C21: the 2x3 grid of six different pixels. -/
theorem C21_pass_commutes_with_transpose_witness :
    strip23.wf ∧ strip23.nonEmpty ∧
    ∃ out outT, sweep strip23 strip23.clone = some out ∧
      sweep strip23.transpose strip23.transpose.clone = some outT ∧ outT = out.transpose ∧
      ∀ i j : Int, strip23.inBounds i j → outT.atVec3b j i = out.atVec3b i j :=
  ⟨by decide, by decide, (C21_pass_commutes_with_transpose strip23 (by decide) (by decide)).1⟩
